import Mathlib

/-!
Verification of the GitStatViewer incremental-synchronization and aggregation
core against its natural-language specification.

The backend model follows `src/backend/src/index.js`: the `/track-repo` route
(probe of the 5 most recent commits, overlap-driven choice between full
backfill, top-up and noop), the helpers `fetchFullHistory` and
`insertCommitDetails`, and the polling tick.  The aggregator model follows
`computeStats` and `generateChartData` in `src/unnamed/part_002` (the current
frontend aggregation code).

Modelling conventions:
* HTTP/store effects are made explicit: an `Env` carries the simulated remote
  history together with failure injectors for the list, detail and create
  operations; the Prisma commit table is a list of records.
* Commit `sha` values and repository keys are strings, as in the source.
* The unbounded `while (hasMore)` loop of `fetchFullHistory` is modelled with
  explicit fuel; termination claims state that any sufficiently large fuel
  bound yields the completed (`done`) outcome.
* Timestamps are milliseconds since the epoch; a calendar day is
  `timestamp / 86400000`, matching the `toISOString` day keys of the source.
* JavaScript number division is modelled by `jsDiv`, which is `none` exactly
  when the denominator is zero (the case where JS would produce NaN or
  Infinity); `toFixed` presentation rounding is not modelled, fields keep
  their exact rational values.
-/

/-- A commit as known to the remote source: summary plus detail statistics
(`sha`, author name, authored date, additions, deletions). -/
structure Commit where
  sha : String
  author : String
  timestamp : Nat
  additions : Nat
  deletions : Nat
deriving DecidableEq

/-- A row of the `repoCommit` table (Prisma model in the backend). -/
structure StoredCommit where
  sha : String
  repo : String
  author : String
  timestamp : Nat
  additions : Nat
  deletions : Nat
deriving DecidableEq

/-- The persisted commit table. -/
abbrev Store := List StoredCommit

/-- The simulated external world: the remote commit history in API order
(most recent first) and failure injectors for the three remote/store
operations the backend performs. -/
structure Env where
  remote : List Commit
  listFails : Nat → Nat → Bool
  detailFails : String → Bool
  createFails : String → Bool

/-- `GET /repos/:owner/:repo/commits?per_page=perPage&page=page`:
returns the requested page of the remote history, or `none` when the
injected network failure fires. -/
def listCommits (env : Env) (perPage page : Nat) : Option (List Commit) :=
  if env.listFails perPage page then none
  else some ((env.remote.drop ((page - 1) * perPage)).take perPage)

/-- `GET /repos/:owner/:repo/commits/:sha`: detail lookup by `sha`;
fails when injected to fail or when the sha is unknown upstream. -/
def getCommitDetail (env : Env) (sha : String) : Option Commit :=
  if env.detailFails sha then none
  else env.remote.find? (fun c => c.sha == sha)

/-- `insertCommitDetails` of the backend: fetch the commit detail and
`prisma.repoCommit.create` the record.  The source wraps the whole body in
`try/catch` and only logs failures, so a failed detail fetch or a failed
create (including the unique-`sha` violation a duplicate would raise) leaves
the store unchanged and is not surfaced to the caller. -/
def insertCommitDetails (env : Env) (store : Store) (sha fullRepo : String) : Store :=
  match getCommitDetail env sha with
  | none => store
  | some c =>
      if env.createFails sha || store.any (fun r => r.sha == sha) then store
      else store ++ [⟨sha, fullRepo, c.author, c.timestamp, c.additions, c.deletions⟩]

/-- One page of the backfill loop body (also the body of a poll tick): for
each listed commit, check membership by `sha` and insert the absent ones via
`insertCommitDetails`.  Returns the new store and the number of detail
requests issued. -/
def processPage (env : Env) (fullRepo : String) (store : Store) (commits : List Commit) :
    Store × Nat :=
  commits.foldl
    (fun acc c =>
      if acc.1.any (fun r => r.sha == c.sha) then acc
      else (insertCommitDetails env acc.1 c.sha fullRepo, acc.2 + 1))
    (store, 0)

/-- Observable outcome of a run of the backfill loop: final store, number of
page requests made, number of pages that contained at least one commit, and
number of detail requests made. -/
structure FetchOut where
  store : Store
  pages : Nat
  dataPages : Nat
  details : Nat
deriving DecidableEq

/-- Outcome of the `while (hasMore)` loop of `fetchFullHistory`: normal exit,
a propagated page-fetch failure (partial inserts are kept — the store is a
persistent side effect), or fuel exhaustion (the modelling artefact standing
for a loop that has not yet terminated). -/
inductive FetchResult where
  | done : FetchOut → FetchResult
  | failed : FetchOut → FetchResult
  | fuelOut : FetchOut → FetchResult
deriving DecidableEq

/-- `fetchFullHistory` of the backend: request pages of 100 commits, starting
at `page`, inserting unseen commits; stop on an empty page; continue exactly
when a page has the full 100 results.  Fuel bounds the number of iterations
the model is willing to unfold. -/
def fetchFullHistoryAux (env : Env) (fullRepo : String) :
    Nat → Store → Nat → FetchResult
  | 0, store, _ => .fuelOut ⟨store, 0, 0, 0⟩
  | fuel + 1, store, page =>
      match listCommits env 100 page with
      | none => .failed ⟨store, 1, 0, 0⟩
      | some commits =>
          if commits.isEmpty then .done ⟨store, 1, 0, 0⟩
          else
            let step := processPage env fullRepo store commits
            if commits.length = 100 then
              match fetchFullHistoryAux env fullRepo fuel step.1 (page + 1) with
              | .done out => .done ⟨out.store, out.pages + 1, out.dataPages + 1, out.details + step.2⟩
              | .failed out => .failed ⟨out.store, out.pages + 1, out.dataPages + 1, out.details + step.2⟩
              | .fuelOut out => .fuelOut ⟨out.store, out.pages + 1, out.dataPages + 1, out.details + step.2⟩
            else .done ⟨step.1, 1, 1, step.2⟩

/-- Process-wide backend state: the single tracked-target slot (`trackedRepo`)
and the commit table. -/
structure ServerState where
  trackedRepo : Option String
  store : Store
deriving DecidableEq

/-- The sync mode chosen by the probe (which branch of the route body ran). -/
inductive SyncMode where
  | backfill | topup | noop
deriving DecidableEq

/-- HTTP-level outcome of `POST /track-repo`.  `badRequest` is the missing
owner/repo 400, `conflict` the single-target 400, `syncError` the catch-all
500, `diverged` the fuel-exhaustion modelling artefact. -/
inductive TrackResult where
  | ok | badRequest | conflict | syncError | diverged
deriving DecidableEq

/-- Observable outcome of one `POST /track-repo` request: result, new server
state, number of remote requests issued, and the sync-mode branch taken. -/
structure TrackOut where
  result : TrackResult
  state : ServerState
  requests : Nat
  mode : Option SyncMode
deriving DecidableEq

/-- The `newShas` accumulation of the route body: the shas of the probed
commits that are absent from the store, in probe order. -/
def absentShas (store : Store) (latest : List Commit) : List String :=
  (latest.filter (fun c => !store.any (fun r => r.sha == c.sha))).map (·.sha)

/-- The top-up loop of the route body: one `insertCommitDetails` call per
absent sha, counting the detail requests made. -/
def topupInsert (env : Env) (fullRepo : String) (store : Store) (shas : List String) :
    Store × Nat :=
  shas.foldl (fun acc sha => (insertCommitDetails env acc.1 sha fullRepo, acc.2 + 1)) (store, 0)

/-- The `/track-repo` route handler (`startTracking`): validate the body,
enforce the single-target constraint, probe the latest 5 commits, compare
their shas against the store, and branch on the number of absent shas —
all 5 absent: full backfill; 1 to 4 absent: top-up of exactly those; none
absent: noop.  On success of any branch the target is recorded as tracked. -/
def trackRepo (env : Env) (st : ServerState) (owner repo : String) (fuel : Nat) : TrackOut :=
  if owner = "" || repo = "" then ⟨.badRequest, st, 0, none⟩
  else
    let fullRepo := owner ++ "/" ++ repo
    if st.trackedRepo.isSome && st.trackedRepo != some fullRepo then
      ⟨.conflict, st, 0, none⟩
    else
      match listCommits env 5 1 with
      | none => ⟨.syncError, st, 1, none⟩
      | some latest =>
          let newShas := absentShas st.store latest
          if newShas.length = 5 then
            match fetchFullHistoryAux env fullRepo fuel st.store 1 with
            | .done out =>
                ⟨.ok, ⟨some fullRepo, out.store⟩, 1 + out.pages + out.details, some .backfill⟩
            | .failed out =>
                ⟨.syncError, ⟨st.trackedRepo, out.store⟩, 1 + out.pages + out.details, some .backfill⟩
            | .fuelOut out =>
                ⟨.diverged, ⟨st.trackedRepo, out.store⟩, 1 + out.pages + out.details, some .backfill⟩
          else if 0 < newShas.length then
            let step := topupInsert env fullRepo st.store newShas
            ⟨.ok, ⟨some fullRepo, step.1⟩, 1 + step.2, some .topup⟩
          else ⟨.ok, ⟨some fullRepo, st.store⟩, 1, some .noop⟩

/-- One tick of `startPolling`: nothing when no target is tracked; otherwise
list the latest 5 commits and insert the absent ones.  All failures inside
the tick are caught and logged, leaving the state as it stands. -/
def pollTick (env : Env) (st : ServerState) : ServerState :=
  match st.trackedRepo with
  | none => st
  | some fullRepo =>
      match listCommits env 5 1 with
      | none => st
      | some latest => ⟨st.trackedRepo, (processPage env fullRepo st.store latest).1⟩

/-- An operation of the backend lifecycle: a tracking request or a poll tick. -/
inductive BackendOp where
  | track (owner repo : String) (fuel : Nat)
  | poll
deriving DecidableEq

/-- Apply one backend operation to the server state. -/
def applyOp (env : Env) (st : ServerState) : BackendOp → ServerState
  | .track owner repo fuel => (trackRepo env st owner repo fuel).state
  | .poll => pollTick env st

/-- Apply a sequence of backend operations. -/
def applyOps (env : Env) (st : ServerState) (ops : List BackendOp) : ServerState :=
  ops.foldl (applyOp env) st

/-- The store invariant of the spec: at most one record per `sha`. -/
def atMostOnePerSha (s : Store) : Prop :=
  ∀ x : String, (s.filter (fun r => r.sha == x)).length ≤ 1

/-- The `FetchOut` carried by any `FetchResult` constructor. -/
def FetchResult.out : FetchResult → FetchOut
  | .done o => o
  | .failed o => o
  | .fuelOut o => o

/-- The record `insertCommitDetails` writes for commit `c` of target `fullRepo`. -/
def mkStored (fullRepo : String) (c : Commit) : StoredCommit :=
  ⟨c.sha, fullRepo, c.author, c.timestamp, c.additions, c.deletions⟩

theorem find?_sha_eq {remote : List Commit} {c : Commit}
    (hnd : (remote.map Commit.sha).Nodup) (hc : c ∈ remote) :
    remote.find? (fun d => d.sha == c.sha) = some c := by
  induction remote with
  | nil => cases hc
  | cons d rest ih =>
    rw [List.map_cons, List.nodup_cons] at hnd
    rcases List.mem_cons.1 hc with rfl | hmem
    · simp [List.find?_cons]
    · have hne : (d.sha == c.sha) = false := by
        refine beq_eq_false_iff_ne.2 (fun h => hnd.1 ?_)
        exact h ▸ List.mem_map_of_mem Commit.sha hmem
      rw [List.find?_cons, hne]
      exact ih hnd.2 hmem

theorem getCommitDetail_mem {env : Env} {c : Commit}
    (hf : env.detailFails c.sha = false)
    (hnd : (env.remote.map Commit.sha).Nodup) (hc : c ∈ env.remote) :
    getCommitDetail env c.sha = some c := by
  rw [getCommitDetail, hf, if_neg (by simp)]
  exact find?_sha_eq hnd hc

theorem insert_fresh {env : Env} {store : Store} {c : Commit} {fullRepo : String}
    (hd : getCommitDetail env c.sha = some c)
    (hcr : env.createFails c.sha = false)
    (hfresh : store.any (fun r => r.sha == c.sha) = false) :
    insertCommitDetails env store c.sha fullRepo = store ++ [mkStored fullRepo c] := by
  rw [insertCommitDetails, hd, hcr, hfresh]
  rfl

theorem processPage_go (env : Env) (fullRepo : String) (commits : List Commit) :
    ∀ (store : Store) (n : Nat),
    (commits.map Commit.sha).Nodup →
    (∀ c ∈ commits, getCommitDetail env c.sha = some c) →
    (∀ c ∈ commits, env.createFails c.sha = false) →
    (∀ c ∈ commits, store.any (fun r => r.sha == c.sha) = false) →
    commits.foldl
      (fun acc c =>
        if acc.1.any (fun r => r.sha == c.sha) then acc
        else (insertCommitDetails env acc.1 c.sha fullRepo, acc.2 + 1))
      (store, n)
      = (store ++ commits.map (mkStored fullRepo), n + commits.length) := by
  induction commits with
  | nil => intro store n _ _ _ _; simp
  | cons c rest ih =>
    intro store n hnd hdet hcr hfresh
    rw [List.map_cons, List.nodup_cons] at hnd
    have hins : insertCommitDetails env store c.sha fullRepo = store ++ [mkStored fullRepo c] :=
      insert_fresh (hdet c (List.mem_cons_self c rest))
        (hcr c (List.mem_cons_self c rest))
        (hfresh c (List.mem_cons_self c rest))
    rw [List.foldl_cons, if_neg (by rw [hfresh c (List.mem_cons_self c rest)]; simp), hins]
    rw [ih (store ++ [mkStored fullRepo c]) (n + 1) hnd.2
      (fun d hd' => hdet d (List.mem_cons_of_mem c hd'))
      (fun d hd' => hcr d (List.mem_cons_of_mem c hd'))
      (fun d hd' => ?_)]
    · simp [List.append_assoc, Nat.add_comm, Nat.add_assoc, Nat.add_left_comm]
    · rw [List.any_append, hfresh d (List.mem_cons_of_mem c hd')]
      have hne : c.sha ≠ d.sha := by
        intro h
        exact hnd.1 (by rw [h]; exact List.mem_map_of_mem Commit.sha hd')
      simp [mkStored, hne]

theorem processPage_fresh {env : Env} {fullRepo : String} {store : Store}
    {commits : List Commit}
    (hnd : (commits.map Commit.sha).Nodup)
    (hdet : ∀ c ∈ commits, getCommitDetail env c.sha = some c)
    (hcr : ∀ c ∈ commits, env.createFails c.sha = false)
    (hfresh : ∀ c ∈ commits, store.any (fun r => r.sha == c.sha) = false) :
    processPage env fullRepo store commits
      = (store ++ commits.map (mkStored fullRepo), commits.length) := by
  rw [processPage, processPage_go env fullRepo commits store 0 hnd hdet hcr hfresh]
  simp

/-- Opaque distinct sha for the `i`-th simulated commit. -/
def shaOf (i : Nat) : String := String.mk (List.replicate i 'a')

theorem shaOf_injective : Function.Injective shaOf := by
  intro i j h
  have h2 : List.replicate i 'a' = List.replicate j 'a' := congrArg String.data h
  simpa using congrArg List.length h2

/-- The `i`-th simulated remote commit. -/
def commitOf (i : Nat) : Commit := ⟨shaOf i, "alice", i * 3600000, 1, 0⟩

/-- A simulated remote history of `n` commits with pairwise distinct shas. -/
def simRemote (n : Nat) : List Commit := (List.range n).map commitOf

/-- The failure-free environment with a remote history of exactly 200 commits. -/
def env200 : Env := ⟨simRemote 200, fun _ _ => false, fun _ => false, fun _ => false⟩

theorem simRemote_shas_nodup (n : Nat) : ((simRemote n).map Commit.sha).Nodup := by
  rw [simRemote, List.map_map]
  exact (List.nodup_range n).map (fun i j h => shaOf_injective h)

theorem env200_page1 : listCommits env200 100 1 = some ((List.range 100).map commitOf) := by
  rw [listCommits, show env200.listFails 100 1 = false from rfl, if_neg Bool.false_ne_true]
  rw [show env200.remote = simRemote 200 from rfl, show (1 - 1) * 100 = 0 from rfl,
    List.drop_zero, simRemote, ← List.map_take, List.take_range]
  rfl

theorem range200_split : List.range 200 = List.range 100 ++ List.range' 100 100 := by
  rw [List.range_eq_range', List.range_eq_range']
  have := List.range'_append 0 100 100 1
  simp at this
  rw [← this]

theorem env200_page2 : listCommits env200 100 2 = some ((List.range' 100 100).map commitOf) := by
  rw [listCommits, show env200.listFails 100 2 = false from rfl, if_neg Bool.false_ne_true]
  rw [show env200.remote = simRemote 200 from rfl, show (2 - 1) * 100 = 100 from rfl,
    simRemote, range200_split, List.map_append]
  rw [List.drop_left' (by simp), List.take_of_length_le (by simp)]

theorem env200_page3 : listCommits env200 100 3 = some [] := by
  rw [listCommits, show env200.listFails 100 3 = false from rfl, if_neg Bool.false_ne_true]
  rw [show env200.remote = simRemote 200 from rfl,
    List.drop_eq_nil_of_le (by simp [simRemote]), List.take_nil]

theorem env200_detail {c : Commit} (hc : c ∈ simRemote 200) :
    getCommitDetail env200 c.sha = some c :=
  getCommitDetail_mem rfl (simRemote_shas_nodup 200) hc

/-- Store contents after the first backfill page of `env200`. -/
def store100 : Store := ((List.range 100).map commitOf).map (mkStored "o/r")

/-- Store contents after the second backfill page of `env200`. -/
def store200 : Store := store100 ++ ((List.range' 100 100).map commitOf).map (mkStored "o/r")

theorem env200_pp1 :
    processPage env200 "o/r" [] ((List.range 100).map commitOf) = (store100, 100) := by
  rw [processPage_fresh]
  · simp [store100]
  · rw [List.map_map]
    exact (List.nodup_range 100).map (fun i j h => shaOf_injective h)
  · intro c hc
    rcases List.mem_map.1 hc with ⟨i, hi, rfl⟩
    exact env200_detail (List.mem_map_of_mem commitOf
      (List.mem_range.2 (lt_trans (List.mem_range.1 hi) (by norm_num))))
  · intro c _
    rfl
  · intro c _
    rfl

theorem env200_pp2 :
    processPage env200 "o/r" store100 ((List.range' 100 100).map commitOf)
      = (store200, 100) := by
  rw [processPage_fresh]
  · simp [store200]
  · rw [List.map_map]
    refine ((List.nodup_range' 100 100).map (fun i j h => shaOf_injective h) : _)
  · intro c hc
    rcases List.mem_map.1 hc with ⟨i, hi, rfl⟩
    have := (List.mem_range'_1.1 hi).2
    exact env200_detail (List.mem_map_of_mem commitOf (List.mem_range.2 (by omega)))
  · intro c _
    rfl
  · intro c hc
    rcases List.mem_map.1 hc with ⟨j, hj, rfl⟩
    rw [List.any_eq_false]
    intro r hr
    rcases List.mem_map.1 hr with ⟨d, hd, rfl⟩
    rcases List.mem_map.1 hd with ⟨i, hi, rfl⟩
    have hij : i ≠ j := by
      have h1 := List.mem_range.1 hi
      have h2 := (List.mem_range'_1.1 hj).1
      omega
    simp [mkStored, commitOf]
    exact fun h => hij (shaOf_injective h)

theorem fetchAux_step_empty {env : Env} {fr : String} {fuel : Nat} {store : Store} {page : Nat}
    (hl : listCommits env 100 page = some []) :
    fetchFullHistoryAux env fr (fuel + 1) store page = .done ⟨store, 1, 0, 0⟩ := by
  simp only [fetchFullHistoryAux, hl, List.isEmpty_nil, if_true]

theorem fetchAux_step_full {env : Env} {fr : String} {fuel : Nat} {store : Store} {page : Nat}
    {cs : List Commit} {out : FetchOut}
    (hl : listCommits env 100 page = some cs) (hne : cs.isEmpty = false)
    (hlen : cs.length = 100)
    (hrec : fetchFullHistoryAux env fr fuel (processPage env fr store cs).1 (page + 1)
      = .done out) :
    fetchFullHistoryAux env fr (fuel + 1) store page
      = .done ⟨out.store, out.pages + 1, out.dataPages + 1,
          out.details + (processPage env fr store cs).2⟩ := by
  simp only [fetchFullHistoryAux, hl, hne, Bool.false_eq_true, if_false, hlen, if_pos, hrec]

theorem fetch_env200 (f : Nat) :
    fetchFullHistoryAux env200 "o/r" (f + 3) [] 1
      = .done ⟨store200, 3, 2, 200⟩ := by
  have h3 : fetchFullHistoryAux env200 "o/r" (f + 1) store200 3 = .done ⟨store200, 1, 0, 0⟩ :=
    fetchAux_step_empty env200_page3
  have h2 : fetchFullHistoryAux env200 "o/r" (f + 1 + 1) store100 2
      = .done ⟨store200, 2, 1, 100⟩ := by
    have := fetchAux_step_full env200_page2 (by rfl) (by simp) (by rw [env200_pp2]; exact h3)
    rw [this, env200_pp2]
    rfl
  have h1 := fetchAux_step_full env200_page1 (by rfl) (by simp) (by rw [env200_pp1]; exact h2)
  show fetchFullHistoryAux env200 "o/r" (f + 1 + 1 + 1) [] 1 = _
  rw [h1, env200_pp1]
  rfl

/-- C1: for the simulated 200-commit remote with 100-commit pages, the
backfill loop terminates for every sufficient fuel bound: it fetches exactly
2 pages of commits (the third request returns the empty page that ends the
loop, as the spec's termination note requires), and stores exactly 200
records. -/
theorem claim1_backfill_termination :
    ∀ fuel : Nat, 3 ≤ fuel →
    ∃ out : FetchOut,
      fetchFullHistoryAux env200 "o/r" fuel [] 1 = .done out
      ∧ out.store.length = 200 ∧ out.dataPages = 2 ∧ out.pages = 3 := by
  intro fuel h
  obtain ⟨f, rfl⟩ : ∃ f, fuel = f + 3 := ⟨fuel - 3, by omega⟩
  refine ⟨⟨store200, 3, 2, 200⟩, fetch_env200 f, ?_, rfl, rfl⟩
  simp [store200, store100]

/-- Witness for C1 at the concrete fuel bound 3. -/
theorem claim1_backfill_termination_witness :
    ∃ out : FetchOut,
      fetchFullHistoryAux env200 "o/r" 3 [] 1 = .done out
      ∧ out.store.length = 200 ∧ out.dataPages = 2 ∧ out.pages = 3 :=
  claim1_backfill_termination 3 (Nat.le_refl 3)

theorem trackRepo_conflict (env : Env) (st : ServerState) (owner repo t : String)
    (fuel : Nat) (ho : owner ≠ "") (hr : repo ≠ "")
    (ht : st.trackedRepo = some t) (hne : t ≠ owner ++ "/" ++ repo) :
    trackRepo env st owner repo fuel = ⟨.conflict, st, 0, none⟩ := by
  rw [trackRepo, if_neg (by simp [ho, hr])]
  simp only []
  rw [if_pos (by simp [ht, hne])]

/-- C5: a tracking request for a target different from the currently tracked
one fails with the conflict error before doing anything: zero remote
requests, server state (tracked slot and store) unchanged, no sync branch
entered. -/
theorem claim5_conflict_before_any_effect :
    ∀ (env : Env) (st : ServerState) (owner repo t : String) (fuel : Nat),
    owner ≠ "" → repo ≠ "" →
    st.trackedRepo = some t → t ≠ owner ++ "/" ++ repo →
    trackRepo env st owner repo fuel = ⟨.conflict, st, 0, none⟩ :=
  fun env st owner repo t fuel ho hr ht hne =>
    trackRepo_conflict env st owner repo t fuel ho hr ht hne

/-- Witness for C5: tracking "c/d" while "a/b" is tracked conflicts and
leaves the single stored record of "a/b" untouched. -/
theorem claim5_conflict_before_any_effect_witness :
    trackRepo ⟨[⟨"x", "eve", 0, 1, 1⟩], fun _ _ => false, fun _ => false, fun _ => false⟩
        ⟨some "a/b", [⟨"x", "a/b", "eve", 0, 1, 1⟩]⟩ "c" "d" 5
      = ⟨.conflict, ⟨some "a/b", [⟨"x", "a/b", "eve", 0, 1, 1⟩]⟩, 0, none⟩ :=
  claim5_conflict_before_any_effect _ _ "c" "d" "a/b" 5 (by decide) (by decide) rfl (by decide)

theorem trackRepo_not_conflict {env : Env} {st : ServerState} {owner repo : String}
    {fuel : Nat} (ho : owner ≠ "") (hr : repo ≠ "")
    (hc : (st.trackedRepo.isSome && st.trackedRepo != some (owner ++ "/" ++ repo)) = false) :
    (trackRepo env st owner repo fuel).result ≠ .conflict
    ∧ 1 ≤ (trackRepo env st owner repo fuel).requests := by
  rw [trackRepo, if_neg (by simp [ho, hr])]
  simp only []
  rw [if_neg (by simp [hc])]
  cases hlc : listCommits env 5 1 with
  | none => simp
  | some latest =>
      simp only []
      split
      · split <;> simp <;> omega
      · split <;> simp

/-- C10: a tracking request is rejected with the conflict error exactly when
a different target is currently tracked; in particular re-tracking the
currently tracked target is not rejected and re-runs the probe (at least one
remote request is made). -/
theorem claim10_retrack_same_target_allowed :
    ∀ (env : Env) (st : ServerState) (owner repo : String) (fuel : Nat),
    owner ≠ "" → repo ≠ "" →
    ((trackRepo env st owner repo fuel).result = .conflict
        ↔ ∃ t, st.trackedRepo = some t ∧ t ≠ owner ++ "/" ++ repo)
    ∧ (st.trackedRepo = some (owner ++ "/" ++ repo) →
        (trackRepo env st owner repo fuel).result ≠ .conflict
        ∧ 1 ≤ (trackRepo env st owner repo fuel).requests) := by
  intro env st owner repo fuel ho hr
  by_cases hc : (st.trackedRepo.isSome && st.trackedRepo != some (owner ++ "/" ++ repo)) = true
  · obtain ⟨t, ht⟩ : ∃ t, st.trackedRepo = some t := by
      cases hst : st.trackedRepo with
      | none => rw [hst] at hc; simp at hc
      | some t => exact ⟨t, rfl⟩
    have hne : t ≠ owner ++ "/" ++ repo := by
      intro h
      rw [ht, h] at hc
      simp at hc
    have heq := trackRepo_conflict env st owner repo t fuel ho hr ht hne
    constructor
    · rw [heq]
      exact ⟨fun _ => ⟨t, ht, hne⟩, fun _ => rfl⟩
    · intro hsame
      rw [ht] at hsame
      exact absurd (Option.some_injective _ hsame) hne
  · have hc' : (st.trackedRepo.isSome && st.trackedRepo != some (owner ++ "/" ++ repo)) = false :=
      Bool.eq_false_iff.2 hc
    have hnc := @trackRepo_not_conflict env st owner repo fuel ho hr hc'
    constructor
    · constructor
      · intro h
        exact absurd h hnc.1
      · rintro ⟨t, ht, hne⟩
        rw [ht] at hc'
        simp [hne] at hc'
    · intro _
      exact hnc

theorem trackRepo_eq_branch {env : Env} {st : ServerState} {owner repo : String} {fuel : Nat}
    {latest : List Commit}
    (ho : owner ≠ "") (hr : repo ≠ "")
    (hc : (st.trackedRepo.isSome && st.trackedRepo != some (owner ++ "/" ++ repo)) = false)
    (hlc : listCommits env 5 1 = some latest) :
    trackRepo env st owner repo fuel =
      (if (absentShas st.store latest).length = 5 then
        match fetchFullHistoryAux env (owner ++ "/" ++ repo) fuel st.store 1 with
        | .done out =>
            ⟨.ok, ⟨some (owner ++ "/" ++ repo), out.store⟩,
              1 + out.pages + out.details, some .backfill⟩
        | .failed out =>
            ⟨.syncError, ⟨st.trackedRepo, out.store⟩,
              1 + out.pages + out.details, some .backfill⟩
        | .fuelOut out =>
            ⟨.diverged, ⟨st.trackedRepo, out.store⟩,
              1 + out.pages + out.details, some .backfill⟩
      else if 0 < (absentShas st.store latest).length then
        ⟨.ok,
          ⟨some (owner ++ "/" ++ repo),
            (topupInsert env (owner ++ "/" ++ repo) st.store (absentShas st.store latest)).1⟩,
          1 + (topupInsert env (owner ++ "/" ++ repo) st.store (absentShas st.store latest)).2,
          some .topup⟩
      else ⟨.ok, ⟨some (owner ++ "/" ++ repo), st.store⟩, 1, some .noop⟩) := by
  rw [trackRepo, if_neg (by simp [ho, hr])]
  simp only []
  rw [if_neg (by simp [hc]), hlc]

theorem topup_go (env : Env) (fullRepo : String) (commits : List Commit) :
    ∀ (store : Store) (n : Nat),
    (commits.map Commit.sha).Nodup →
    (∀ c ∈ commits, getCommitDetail env c.sha = some c) →
    (∀ c ∈ commits, env.createFails c.sha = false) →
    (∀ c ∈ commits, store.any (fun r => r.sha == c.sha) = false) →
    commits.foldl (fun acc c => (insertCommitDetails env acc.1 c.sha fullRepo, acc.2 + 1))
      (store, n)
      = (store ++ commits.map (mkStored fullRepo), n + commits.length) := by
  induction commits with
  | nil => intro store n _ _ _ _; simp
  | cons c rest ih =>
    intro store n hnd hdet hcr hfresh
    rw [List.map_cons, List.nodup_cons] at hnd
    have hins : insertCommitDetails env store c.sha fullRepo = store ++ [mkStored fullRepo c] :=
      insert_fresh (hdet c (List.mem_cons_self c rest))
        (hcr c (List.mem_cons_self c rest))
        (hfresh c (List.mem_cons_self c rest))
    rw [List.foldl_cons, hins]
    rw [ih (store ++ [mkStored fullRepo c]) (n + 1) hnd.2
      (fun d hd' => hdet d (List.mem_cons_of_mem c hd'))
      (fun d hd' => hcr d (List.mem_cons_of_mem c hd'))
      (fun d hd' => ?_)]
    · simp [List.append_assoc, Nat.add_comm, Nat.add_assoc, Nat.add_left_comm]
    · rw [List.any_append, hfresh d (List.mem_cons_of_mem c hd')]
      have hne : c.sha ≠ d.sha := by
        intro h
        exact hnd.1 (by rw [h]; exact List.mem_map_of_mem Commit.sha hd')
      simp [mkStored, hne]

theorem topupInsert_fresh {env : Env} {fullRepo : String} {store : Store}
    {commits : List Commit}
    (hnd : (commits.map Commit.sha).Nodup)
    (hdet : ∀ c ∈ commits, getCommitDetail env c.sha = some c)
    (hcr : ∀ c ∈ commits, env.createFails c.sha = false)
    (hfresh : ∀ c ∈ commits, store.any (fun r => r.sha == c.sha) = false) :
    topupInsert env fullRepo store (commits.map Commit.sha)
      = (store ++ commits.map (mkStored fullRepo), commits.length) := by
  rw [topupInsert, List.foldl_map, topup_go env fullRepo commits store 0 hnd hdet hcr hfresh]
  simp

theorem absentShas_all {store : Store} {latest : List Commit}
    (h : ∀ c ∈ latest, store.any (fun r => r.sha == c.sha) = false) :
    absentShas store latest = latest.map Commit.sha := by
  rw [absentShas, List.filter_eq_self.2 (fun c hc => by rw [h c hc]; rfl)]

/-- A failure-free environment whose remote history has exactly 3 commits. -/
def env3 : Env :=
  ⟨[⟨"a", "u", 2, 1, 0⟩, ⟨"b", "u", 1, 2, 0⟩, ⟨"c", "u", 0, 3, 0⟩],
    fun _ _ => false, fun _ => false, fun _ => false⟩

/-- C2 counterexample: a brand-new repository with fewer than 5 commits, all
absent from the store, is synced through the TOP-UP branch, not the backfill
branch claimed by the spec (the route compares `newShas.length` against the
literal 5, not against the probe size). -/
theorem claim2_counterexample :
    env3.remote.length = 3
    ∧ absentShas ([] : Store) ((env3.remote.drop 0).take 5) = env3.remote.map Commit.sha
    ∧ (trackRepo env3 ⟨none, []⟩ "o" "r" 9).mode = some SyncMode.topup
    ∧ ¬(trackRepo env3 ⟨none, []⟩ "o" "r" 9).mode = some SyncMode.backfill := by
  decide

/-- C2 (amended): when the remote reports fewer than 5 total commits (but at
least one) and every probed sha is absent from the store, the tracking
request takes the top-up path — not the backfill path — inserting each absent
commit via a detail fetch; since the probe covered the whole remote history,
the store still ends up holding the full history, and the request succeeds. -/
theorem claim2_small_repo_all_absent_topup :
    ∀ (env : Env) (st : ServerState) (owner repo : String) (fuel : Nat),
    owner ≠ "" → repo ≠ "" →
    (st.trackedRepo.isSome && st.trackedRepo != some (owner ++ "/" ++ repo)) = false →
    env.listFails 5 1 = false →
    0 < env.remote.length → env.remote.length < 5 →
    (env.remote.map Commit.sha).Nodup →
    (∀ c ∈ env.remote, env.detailFails c.sha = false) →
    (∀ c ∈ env.remote, env.createFails c.sha = false) →
    (∀ c ∈ env.remote, st.store.any (fun r => r.sha == c.sha) = false) →
    trackRepo env st owner repo fuel
      = ⟨.ok,
          ⟨some (owner ++ "/" ++ repo),
            st.store ++ env.remote.map (mkStored (owner ++ "/" ++ repo))⟩,
          1 + env.remote.length, some .topup⟩ := by
  intro env st owner repo fuel ho hr hc hlf hpos hlt hnd hdf hcf hfresh
  have hlc : listCommits env 5 1 = some env.remote := by
    rw [listCommits, hlf, if_neg Bool.false_ne_true]
    rw [show (1 - 1) * 5 = 0 from rfl, List.drop_zero,
      List.take_of_length_le (Nat.le_of_lt hlt)]
  have habs : absentShas st.store env.remote = env.remote.map Commit.sha :=
    absentShas_all hfresh
  have hdet : ∀ c ∈ env.remote, getCommitDetail env c.sha = some c :=
    fun c hc => getCommitDetail_mem (hdf c hc) hnd hc
  rw [trackRepo_eq_branch ho hr hc hlc, habs]
  rw [if_neg (by rw [List.length_map]; omega),
    if_pos (by rw [List.length_map]; omega)]
  rw [topupInsert_fresh hnd hdet hcf hfresh]

/-- Witness for the amended C2 at the concrete 3-commit environment. -/
theorem claim2_small_repo_all_absent_topup_witness :
    trackRepo env3 ⟨none, []⟩ "o" "r" 9
      = ⟨.ok, ⟨some ("o" ++ "/" ++ "r"), [] ++ env3.remote.map (mkStored ("o" ++ "/" ++ "r"))⟩,
          1 + env3.remote.length, some .topup⟩ :=
  claim2_small_repo_all_absent_topup env3 ⟨none, []⟩ "o" "r" 9
    (by decide) (by decide) rfl rfl (by decide) (by decide) (by decide)
    (fun c _ => rfl) (fun c _ => rfl) (fun c _ => rfl)

/-- Probed commits whose sha is already present in the store. -/
def presentCount (store : Store) (latest : List Commit) : Nat :=
  (latest.filter (fun c => store.any (fun r => r.sha == c.sha))).length

/-- Probed commits whose sha is absent from the store, in probe order. -/
def absentCommits (store : Store) (latest : List Commit) : List Commit :=
  latest.filter (fun c => !store.any (fun r => r.sha == c.sha))

theorem absentShas_eq_map : ∀ (store : Store) (latest : List Commit),
    absentShas store latest = (absentCommits store latest).map Commit.sha :=
  fun _ _ => rfl

theorem length_filter_bnot_add {α : Type} (l : List α) (p : α → Bool) :
    (l.filter (fun a => !p a)).length + (l.filter p).length = l.length := by
  induction l with
  | nil => rfl
  | cons a t ih =>
      cases h : p a <;> simp [List.filter_cons, h] <;> omega

theorem absentCommits_length {store : Store} {latest : List Commit} :
    (absentCommits store latest).length + presentCount store latest = latest.length :=
  length_filter_bnot_add latest _

/-- C3: with a successful probe of exactly 5 summaries, the sync mode is
selected by the overlap count `k` (probed shas present in the store):
`k = 0` enters the backfill branch; `1 ≤ k ≤ 4` enters the top-up branch and
(all remote operations succeeding) appends exactly the absent commits, one
detail fetch each; `k = 5` is a noop — the store is untouched, one single
remote request was made, and the target is registered for polling. -/
theorem claim3_probe_mode_selection :
    ∀ (env : Env) (st : ServerState) (owner repo : String) (fuel : Nat) (latest : List Commit),
    owner ≠ "" → repo ≠ "" →
    (st.trackedRepo.isSome && st.trackedRepo != some (owner ++ "/" ++ repo)) = false →
    listCommits env 5 1 = some latest →
    latest.length = 5 →
    (presentCount st.store latest = 0 →
      (trackRepo env st owner repo fuel).mode = some SyncMode.backfill)
    ∧ (1 ≤ presentCount st.store latest → presentCount st.store latest ≤ 4 →
        (latest.map Commit.sha).Nodup →
        (∀ c ∈ latest, getCommitDetail env c.sha = some c) →
        (∀ c ∈ latest, env.createFails c.sha = false) →
        trackRepo env st owner repo fuel
          = ⟨.ok,
              ⟨some (owner ++ "/" ++ repo),
                st.store
                  ++ (absentCommits st.store latest).map (mkStored (owner ++ "/" ++ repo))⟩,
              1 + (absentCommits st.store latest).length, some SyncMode.topup⟩
        ∧ (absentCommits st.store latest).length + presentCount st.store latest = 5)
    ∧ (presentCount st.store latest = 5 →
        trackRepo env st owner repo fuel
          = ⟨.ok, ⟨some (owner ++ "/" ++ repo), st.store⟩, 1, some SyncMode.noop⟩) := by
  intro env st owner repo fuel latest ho hr hc hlc hlen
  have hsum : (absentCommits st.store latest).length + presentCount st.store latest = 5 := by
    rw [absentCommits_length, hlen]
  have hlenabs : (absentShas st.store latest).length = (absentCommits st.store latest).length := by
    rw [absentShas_eq_map, List.length_map]
  refine ⟨?_, ?_, ?_⟩
  · intro hk
    rw [trackRepo_eq_branch ho hr hc hlc, if_pos (by omega)]
    cases fetchFullHistoryAux env (owner ++ "/" ++ repo) fuel st.store 1 <;> rfl
  · intro hk1 hk4 hnd hdet hcr
    refine ⟨?_, hsum⟩
    rw [trackRepo_eq_branch ho hr hc hlc, if_neg (by omega), if_pos (by omega)]
    have hfresh : ∀ c ∈ absentCommits st.store latest,
        st.store.any (fun r => r.sha == c.sha) = false := by
      intro c hcm
      have := List.of_mem_filter hcm
      simpa using this
    have hnd' : ((absentCommits st.store latest).map Commit.sha).Nodup :=
      ((List.filter_sublist latest).map Commit.sha).nodup hnd
    have heq : topupInsert env (owner ++ "/" ++ repo) st.store (absentShas st.store latest)
        = (st.store ++ (absentCommits st.store latest).map (mkStored (owner ++ "/" ++ repo)),
            (absentCommits st.store latest).length) := by
      rw [absentShas_eq_map]
      exact topupInsert_fresh hnd'
        (fun c hcm => hdet c (List.mem_of_mem_filter hcm))
        (fun c hcm => hcr c (List.mem_of_mem_filter hcm))
        hfresh
    rw [heq]
  · intro hk
    have habs0 : absentShas st.store latest = [] := by
      have : (absentShas st.store latest).length = 0 := by omega
      exact List.eq_nil_of_length_eq_zero this
    rw [trackRepo_eq_branch ho hr hc hlc, habs0]
    rfl

/-- A failure-free environment with 5 remote commits. -/
def env5 : Env :=
  ⟨[⟨"a", "u", 4, 1, 0⟩, ⟨"b", "u", 3, 1, 0⟩, ⟨"c", "u", 2, 1, 0⟩,
    ⟨"d", "u", 1, 1, 0⟩, ⟨"e", "u", 0, 1, 0⟩],
    fun _ _ => false, fun _ => false, fun _ => false⟩

/-- A server state already holding 2 of the 5 probed commits. -/
def st5 : ServerState := ⟨none, [⟨"d", "o/r", "u", 1, 1, 0⟩, ⟨"e", "o/r", "u", 0, 1, 0⟩]⟩

/-- Witness for C3: with 2 of the 5 probed shas present, the request runs the
top-up branch and appends exactly the 3 absent commits. -/
theorem claim3_probe_mode_selection_witness :
    trackRepo env5 st5 "o" "r" 9
      = ⟨.ok,
          ⟨some ("o" ++ "/" ++ "r"),
            st5.store ++ (absentCommits st5.store env5.remote).map (mkStored ("o" ++ "/" ++ "r"))⟩,
          1 + (absentCommits st5.store env5.remote).length, some SyncMode.topup⟩
    ∧ (absentCommits st5.store env5.remote).length + presentCount st5.store env5.remote = 5 :=
  (claim3_probe_mode_selection env5 st5 "o" "r" 9 env5.remote
      (by decide) (by decide) rfl (by decide) rfl).2.1
    (by decide) (by decide) (by decide) (by decide) (by decide)

theorem insert_preserves_inv {env : Env} {store : Store} {sha fullRepo : String}
    (h : atMostOnePerSha store) :
    atMostOnePerSha (insertCommitDetails env store sha fullRepo) := by
  rw [insertCommitDetails]
  cases getCommitDetail env sha with
  | none => exact h
  | some c =>
      dsimp only
      by_cases hcc : (env.createFails sha || store.any (fun r => r.sha == sha)) = true
      · rw [if_pos hcc]
        exact h
      · rw [if_neg hcc]
        have hany : store.any (fun r => r.sha == sha) = false := by
          rcases Bool.or_eq_false_iff.1 (Bool.eq_false_iff.2 hcc) with ⟨_, h2⟩
          exact h2
        intro x
        rw [List.filter_append, List.length_append]
        by_cases hx : sha = x
        · have hnil : store.filter (fun r => r.sha == x) = [] := by
            rw [List.filter_eq_nil_iff]
            intro r hr
            have := List.any_eq_false.1 hany r hr
            rw [← hx]
            exact this
          rw [hnil]
          simp [hx]
        · have : ([(⟨sha, fullRepo, c.author, c.timestamp, c.additions, c.deletions⟩ :
              StoredCommit)].filter (fun r => r.sha == x)) = [] := by
            simp [hx]
          rw [this]
          simpa using h x

theorem processPage_go_inv (env : Env) (fullRepo : String) (commits : List Commit) :
    ∀ (store : Store) (n : Nat), atMostOnePerSha store →
    atMostOnePerSha
      (commits.foldl
        (fun acc c =>
          if acc.1.any (fun r => r.sha == c.sha) then acc
          else (insertCommitDetails env acc.1 c.sha fullRepo, acc.2 + 1))
        (store, n)).1 := by
  induction commits with
  | nil => intro store n h; exact h
  | cons c rest ih =>
      intro store n h
      rw [List.foldl_cons]
      by_cases hb : store.any (fun r => r.sha == c.sha) = true
      · rw [if_pos hb]
        exact ih store n h
      · rw [if_neg hb]
        exact ih _ _ (insert_preserves_inv h)

theorem processPage_inv {env : Env} {fullRepo : String} {store : Store}
    {commits : List Commit} (h : atMostOnePerSha store) :
    atMostOnePerSha (processPage env fullRepo store commits).1 :=
  processPage_go_inv env fullRepo commits store 0 h

theorem topupInsert_go_inv (env : Env) (fullRepo : String) (shas : List String) :
    ∀ (store : Store) (n : Nat), atMostOnePerSha store →
    atMostOnePerSha
      (shas.foldl (fun acc sha => (insertCommitDetails env acc.1 sha fullRepo, acc.2 + 1))
        (store, n)).1 := by
  induction shas with
  | nil => intro store n h; exact h
  | cons s rest ih =>
      intro store n h
      rw [List.foldl_cons]
      exact ih _ _ (insert_preserves_inv h)

theorem topupInsert_inv {env : Env} {fullRepo : String} {shas : List String} {store : Store}
    (h : atMostOnePerSha store) :
    atMostOnePerSha (topupInsert env fullRepo store shas).1 :=
  topupInsert_go_inv env fullRepo shas store 0 h

theorem fetchAux_inv (env : Env) (fullRepo : String) :
    ∀ (fuel : Nat) (store : Store) (page : Nat), atMostOnePerSha store →
    atMostOnePerSha (fetchFullHistoryAux env fullRepo fuel store page).out.store := by
  intro fuel
  induction fuel with
  | zero => intro store page h; exact h
  | succ f ih =>
      intro store page h
      cases hlc : listCommits env 100 page with
      | none =>
          simp only [fetchFullHistoryAux, hlc]
          exact h
      | some commits =>
          simp only [fetchFullHistoryAux, hlc]
          by_cases he : commits.isEmpty = true
          · rw [if_pos he]
            exact h
          · rw [if_neg he]
            by_cases hl : commits.length = 100
            · rw [if_pos hl]
              have hrec := ih (processPage env fullRepo store commits).1 (page + 1)
                (processPage_inv h)
              cases hf : fetchFullHistoryAux env fullRepo f
                  (processPage env fullRepo store commits).1 (page + 1) with
              | done out => rw [hf] at hrec; exact hrec
              | failed out => rw [hf] at hrec; exact hrec
              | fuelOut out => rw [hf] at hrec; exact hrec
            · rw [if_neg hl]
              exact processPage_inv h

theorem trackRepo_inv (env : Env) (st : ServerState) (owner repo : String) (fuel : Nat)
    (h : atMostOnePerSha st.store) :
    atMostOnePerSha (trackRepo env st owner repo fuel).state.store := by
  rw [trackRepo]
  split
  · exact h
  · simp only []
    split
    · exact h
    · cases hlc : listCommits env 5 1 with
      | none => exact h
      | some latest =>
          dsimp only
          split
          · have hrec := fetchAux_inv env (owner ++ "/" ++ repo) fuel st.store 1 h
            cases hf : fetchFullHistoryAux env (owner ++ "/" ++ repo) fuel st.store 1 with
            | done out => rw [hf] at hrec; exact hrec
            | failed out => rw [hf] at hrec; exact hrec
            | fuelOut out => rw [hf] at hrec; exact hrec
          · split
            · exact topupInsert_inv h
            · exact h

theorem pollTick_inv (env : Env) (st : ServerState) (h : atMostOnePerSha st.store) :
    atMostOnePerSha (pollTick env st).store := by
  rw [pollTick]
  cases st.trackedRepo with
  | none => exact h
  | some fullRepo =>
      cases listCommits env 5 1 with
      | none => exact h
      | some latest => exact processPage_inv h

/-- C6: across any sequence of tracking requests (probe/backfill/top-up) and
poll ticks, the store keeps at most one record per sha; and inserting the
same sha twice (the second create attempt fails on the unique constraint and
is swallowed as a success) leaves exactly one record for that sha. -/
theorem claim6_unique_sha_invariant :
    (∀ (env : Env) (st : ServerState) (ops : List BackendOp),
      atMostOnePerSha st.store → atMostOnePerSha (applyOps env st ops).store)
    ∧ (∀ (env : Env) (store : Store) (c : Commit) (fullRepo : String),
        getCommitDetail env c.sha = some c →
        env.createFails c.sha = false →
        store.any (fun r => r.sha == c.sha) = false →
        ((insertCommitDetails env (insertCommitDetails env store c.sha fullRepo)
            c.sha fullRepo).filter (fun r => r.sha == c.sha)).length = 1) := by
  constructor
  · intro env st ops h
    induction ops generalizing st with
    | nil => exact h
    | cons op rest ih =>
        rw [applyOps, List.foldl_cons]
        refine ih (applyOp env st op) ?_
        cases op with
        | track o r f => exact trackRepo_inv env st o r f h
        | poll => exact pollTick_inv env st h
  · intro env store c fullRepo hdet hcr hfresh
    have h1 : insertCommitDetails env store c.sha fullRepo = store ++ [mkStored fullRepo c] :=
      insert_fresh hdet hcr hfresh
    rw [h1, insertCommitDetails, hdet]
    dsimp only
    have hdup : (store ++ [mkStored fullRepo c]).any (fun r => r.sha == c.sha) = true := by
      rw [List.any_append]
      simp [mkStored]
    rw [if_pos (by rw [hdup]; simp)]
    rw [List.filter_append, List.length_append]
    have hnil : store.filter (fun r => r.sha == c.sha) = [] := by
      rw [List.filter_eq_nil_iff]
      intro r hr
      simpa using List.any_eq_false.1 hfresh r hr
    rw [hnil]
    simp [mkStored]

/-- Witness for C6: a track-then-poll run from the empty store, and a double
insert of the same sha leaving one record. -/
theorem claim6_unique_sha_invariant_witness :
    atMostOnePerSha (applyOps env3 ⟨none, []⟩ [BackendOp.track "o" "r" 9, BackendOp.poll]).store
    ∧ ((insertCommitDetails env3 (insertCommitDetails env3 [] "a" "o/r")
          "a" "o/r").filter (fun r => r.sha == "a")).length = 1 :=
  ⟨claim6_unique_sha_invariant.1 env3 ⟨none, []⟩ [BackendOp.track "o" "r" 9, BackendOp.poll]
      (fun x => by simp),
    claim6_unique_sha_invariant.2 env3 [] ⟨"a", "u", 2, 1, 0⟩ "o/r" (by decide) rfl rfl⟩

/-- `env5` with the detail fetch for sha "a" failing. -/
def env5d : Env :=
  ⟨[⟨"a", "u", 4, 1, 0⟩, ⟨"b", "u", 3, 1, 0⟩, ⟨"c", "u", 2, 1, 0⟩,
    ⟨"d", "u", 1, 1, 0⟩, ⟨"e", "u", 0, 1, 0⟩],
    fun _ _ => false, fun s => s == "a", fun _ => false⟩

/-- A server state holding 4 of the 5 probed commits (only "a" is absent). -/
def st4 : ServerState :=
  ⟨none, [⟨"b", "o/r", "u", 3, 1, 0⟩, ⟨"c", "o/r", "u", 2, 1, 0⟩,
    ⟨"d", "o/r", "u", 1, 1, 0⟩, ⟨"e", "o/r", "u", 0, 1, 0⟩]⟩

/-- C4 counterexample: a detail-fetch error during the top-up step is caught
inside `insertCommitDetails` and never surfaces — the request still succeeds
and the target IS marked tracked, contradicting the claim that any fetch
error during top-up surfaces a SyncError and leaves the target untracked. -/
theorem claim4_counterexample :
    env5d.detailFails "a" = true
    ∧ absentShas st4.store ((env5d.remote.drop 0).take 5) = ["a"]
    ∧ trackRepo env5d st4 "o" "r" 9
        = ⟨.ok, ⟨some "o/r", st4.store⟩, 2, some SyncMode.topup⟩ := by
  decide

/-- C4 (amended): an error of the probe list fetch, or of a backfill page
list fetch, surfaces as the sync error and leaves the tracked-target slot
unchanged (a retry is safe); per-commit detail-fetch and store-insert errors
during backfill/top-up are caught and logged inside `insertCommitDetails`
and do not surface, so the top-up and noop paths always report success; on
any success, including noop, the target is recorded as tracked. -/
theorem claim4_error_surfacing :
    ∀ (env : Env) (st : ServerState) (owner repo : String) (fuel : Nat),
    owner ≠ "" → repo ≠ "" →
    (st.trackedRepo.isSome && st.trackedRepo != some (owner ++ "/" ++ repo)) = false →
    (env.listFails 5 1 = true →
      trackRepo env st owner repo fuel = ⟨.syncError, st, 1, none⟩)
    ∧ (∀ (latest : List Commit) (out : FetchOut), listCommits env 5 1 = some latest →
        (absentShas st.store latest).length = 5 →
        fetchFullHistoryAux env (owner ++ "/" ++ repo) fuel st.store 1 = .failed out →
        trackRepo env st owner repo fuel
          = ⟨.syncError, ⟨st.trackedRepo, out.store⟩,
              1 + out.pages + out.details, some .backfill⟩)
    ∧ (∀ (latest : List Commit) (out : FetchOut), listCommits env 5 1 = some latest →
        (absentShas st.store latest).length = 5 →
        fetchFullHistoryAux env (owner ++ "/" ++ repo) fuel st.store 1 = .done out →
        trackRepo env st owner repo fuel
          = ⟨.ok, ⟨some (owner ++ "/" ++ repo), out.store⟩,
              1 + out.pages + out.details, some .backfill⟩)
    ∧ (∀ latest : List Commit, listCommits env 5 1 = some latest →
        (absentShas st.store latest).length ≠ 5 →
        (trackRepo env st owner repo fuel).result = .ok
        ∧ (trackRepo env st owner repo fuel).state.trackedRepo
            = some (owner ++ "/" ++ repo)) := by
  intro env st owner repo fuel ho hr hc
  refine ⟨?_, ?_, ?_, ?_⟩
  · intro hf
    have hlc : listCommits env 5 1 = none := by
      rw [listCommits, if_pos hf]
    rw [trackRepo, if_neg (by simp [ho, hr])]
    simp only []
    rw [if_neg (by simp [hc]), hlc]
  · intro latest out hlc hlen hf
    rw [trackRepo_eq_branch ho hr hc hlc, if_pos hlen, hf]
  · intro latest out hlc hlen hf
    rw [trackRepo_eq_branch ho hr hc hlc, if_pos hlen, hf]
  · intro latest hlc hlen
    rw [trackRepo_eq_branch ho hr hc hlc, if_neg hlen]
    by_cases hp : 0 < (absentShas st.store latest).length
    · rw [if_pos hp]
      exact ⟨rfl, rfl⟩
    · rw [if_neg hp]
      exact ⟨rfl, rfl⟩

/-- Witness for the amended C4: the top-up path of `env5`/`st5` succeeds and
marks the target tracked. -/
theorem claim4_error_surfacing_witness :
    (trackRepo env5 st5 "o" "r" 9).result = .ok
    ∧ (trackRepo env5 st5 "o" "r" 9).state.trackedRepo = some ("o" ++ "/" ++ "r") :=
  (claim4_error_surfacing env5 st5 "o" "r" 9 (by decide) (by decide) rfl).2.2.2
    env5.remote (by decide) (by decide)

/-- Witness for C10: re-tracking the already-tracked "o/r" is not a conflict
and still issues the probe request. -/
theorem claim10_retrack_same_target_allowed_witness :
    ((trackRepo env3 ⟨some ("o" ++ "/" ++ "r"), []⟩ "o" "r" 9).result = .conflict
        ↔ ∃ t, (⟨some ("o" ++ "/" ++ "r"), []⟩ : ServerState).trackedRepo = some t
            ∧ t ≠ "o" ++ "/" ++ "r")
    ∧ ((⟨some ("o" ++ "/" ++ "r"), []⟩ : ServerState).trackedRepo
          = some ("o" ++ "/" ++ "r") →
        (trackRepo env3 ⟨some ("o" ++ "/" ++ "r"), []⟩ "o" "r" 9).result ≠ .conflict
        ∧ 1 ≤ (trackRepo env3 ⟨some ("o" ++ "/" ++ "r"), []⟩ "o" "r" 9).requests) :=
  claim10_retrack_same_target_allowed env3 ⟨some ("o" ++ "/" ++ "r"), []⟩ "o" "r" 9
    (by decide) (by decide)

/-! ### Aggregator (frontend `computeStats` and `generateChartData`) -/

/-- Association-list lookup, modelling JS object / `Map` key access. -/
def alookup {α β : Type} [DecidableEq α] : List (α × β) → α → Option β
  | [], _ => none
  | (k, v) :: rest, key => if k = key then some v else alookup rest key

/-- `Map.set`: overwrite in place if the key exists (keeping its position),
otherwise append at the end — JS `Map` insertion-order semantics. -/
def aset {α β : Type} [DecidableEq α] : List (α × β) → α → β → List (α × β)
  | [], k, v => [(k, v)]
  | (k', v') :: rest, k, v =>
      if k' = k then (k, v) :: rest else (k', v') :: aset rest k v

/-- `normalizeName` of `computeStats`: strip all whitespace, then lower-case
(`name.replace(/\s+/g, '').toLowerCase()`). -/
def normalizeName (s : String) : String :=
  String.mk ((s.data.filter (fun c => !c.isWhitespace)).map Char.toLower)

/-- One `authorStats[normalized]` bucket: representative display name
(first-seen raw value) and running totals. -/
structure AuthorAcc where
  author : String
  commits : Nat
  additions : Nat
  deletions : Nat
deriving DecidableEq

/-- The `+=` updates of one `computeStats` loop iteration on an existing
bucket: one more commit, the commit's additions and deletions added. -/
def bumpAcc (c : StoredCommit) (a : AuthorAcc) : AuthorAcc :=
  ⟨a.author, a.commits + 1, a.additions + c.additions, a.deletions + c.deletions⟩

/-- One loop iteration of `computeStats`: create the bucket on first sight of
a normalized key, then add the commit's counts to it. -/
def addCommitToStats (acc : List (String × AuthorAcc)) (c : StoredCommit) :
    List (String × AuthorAcc) :=
  let key := normalizeName c.author
  match alookup acc key with
  | some _ =>
      acc.map (fun p => if p.1 = key then (p.1, bumpAcc c p.2) else p)
  | none => acc ++ [(key, ⟨c.author, 1, c.additions, c.deletions⟩)]

/-- `totalLinesChanged`, accumulated unconditionally over every commit in the
same loop (`totalLinesChanged += additions + deletions`). -/
def totalLinesChangedOf (l : List StoredCommit) : Nat :=
  (l.map (fun c => c.additions + c.deletions)).sum

/-- JS division where a zero denominator would produce NaN/Infinity: `none`
exactly in that case, otherwise the exact rational quotient. -/
def jsDiv (a b : ℚ) : Option ℚ := if b = 0 then none else some (a / b)

/-- One entry of the author summary (percentage fields keep their exact
rational values; `toFixed` presentation rounding is not modelled). -/
structure AuthorEntry where
  author : String
  commits : Nat
  additions : Nat
  deletions : Nat
  avgLinesChanged : Option ℚ
  commitPercent : Option ℚ
  changePercent : Option ℚ
deriving DecidableEq

/-- The mapping from a bucket to a summary entry: average lines per commit,
share of total commits (×100), share of total lines changed (×100) with the
explicit zero guard of the source (`totalLinesChanged > 0 ? … : '0.0'`). -/
def mkEntry (totalCommits totalLinesChanged : Nat) (a : AuthorAcc) : AuthorEntry :=
  let linesChanged := a.additions + a.deletions
  ⟨a.author, a.commits, a.additions, a.deletions,
    jsDiv (linesChanged : ℚ) (a.commits : ℚ),
    (jsDiv (a.commits : ℚ) (totalCommits : ℚ)).map (fun q => q * 100),
    if 0 < totalLinesChanged then
      (jsDiv (linesChanged : ℚ) (totalLinesChanged : ℚ)).map (fun q => q * 100)
    else some 0⟩

/-- Result of `computeStats`. -/
structure Stats where
  totalCommits : Nat
  authors : List AuthorEntry
deriving DecidableEq

/-- `computeStats` of `src/unnamed/part_002`: guard the empty input, group
commits by normalized author key, map the buckets to summary entries, and
sort by commit count descending (stable). -/
def computeStats (l : List StoredCommit) : Stats :=
  if l.isEmpty then ⟨0, []⟩
  else
    let grouped := l.foldl addCommitToStats []
    let entries := grouped.map (fun p => mkEntry l.length (totalLinesChangedOf l) p.2)
    ⟨l.length, List.insertionSort (fun a b => b.commits ≤ a.commits) entries⟩

theorem addCommit_commits_pos {acc : List (String × AuthorAcc)} {c : StoredCommit}
    (h : ∀ p ∈ acc, 1 ≤ p.2.commits) :
    ∀ p ∈ addCommitToStats acc c, 1 ≤ p.2.commits := by
  intro p hp
  rw [addCommitToStats] at hp
  cases halk : alookup acc (normalizeName c.author) with
  | some a =>
      rw [halk] at hp
      dsimp only at hp
      rcases List.mem_map.1 hp with ⟨q, hq, rfl⟩
      by_cases hk : q.1 = normalizeName c.author
      · rw [if_pos hk]
        dsimp only [bumpAcc]
        omega
      · rw [if_neg hk]
        exact h q hq
  | none =>
      rw [halk] at hp
      dsimp only at hp
      rcases List.mem_append.1 hp with hq | hq
      · exact h p hq
      · rcases List.mem_singleton.1 hq with rfl
        exact Nat.le_refl 1

theorem grouped_commits_pos (l : List StoredCommit) :
    ∀ p ∈ l.foldl addCommitToStats [], 1 ≤ p.2.commits := by
  suffices h : ∀ acc, (∀ p ∈ acc, 1 ≤ p.2.commits) →
      ∀ p ∈ l.foldl addCommitToStats acc, 1 ≤ p.2.commits by
    exact h [] (by intro p hp; cases hp)
  induction l with
  | nil => intro acc h; simpa using h
  | cons c rest ih =>
      intro acc h
      rw [List.foldl_cons]
      exact ih _ (addCommit_commits_pos h)

theorem computeStats_mem_authors {l : List StoredCommit} {e : AuthorEntry}
    (he : e ∈ (computeStats l).authors) :
    l.isEmpty = false
    ∧ ∃ p ∈ l.foldl addCommitToStats [],
        e = mkEntry l.length (totalLinesChangedOf l) p.2 := by
  by_cases hl : l.isEmpty = true
  · rw [computeStats, if_pos hl] at he
    cases he
  · have hl' : l.isEmpty = false := Bool.eq_false_iff.2 hl
    rw [computeStats, if_neg hl] at he
    dsimp only at he
    have := ((List.perm_insertionSort
      (fun a b : AuthorEntry => b.commits ≤ a.commits) _).mem_iff).1 he
    rcases List.mem_map.1 this with ⟨p, hp, rfl⟩
    exact ⟨hl', p, hp, rfl⟩

/-- C9 (amended): aggregating the empty sequence yields zero commits and an
empty author list; every percentage or average field of every entry is a
well-defined division (never a division by zero); and whenever the total
lines changed is zero, every change-percentage field is reported as the
literal zero.  (The commit-percentage field is computed from the commit
totals and is nonzero in that situation — see the counterexample.) -/
theorem claim9_zero_division_safety :
    computeStats [] = ⟨0, []⟩
    ∧ (∀ (l : List StoredCommit) (e : AuthorEntry), e ∈ (computeStats l).authors →
        e.avgLinesChanged.isSome ∧ e.commitPercent.isSome ∧ e.changePercent.isSome)
    ∧ (∀ (l : List StoredCommit) (e : AuthorEntry), totalLinesChangedOf l = 0 →
        e ∈ (computeStats l).authors → e.changePercent = some 0) := by
  refine ⟨rfl, ?_, ?_⟩
  · intro l e he
    rcases computeStats_mem_authors he with ⟨hl, p, hp, rfl⟩
    have hcp : 1 ≤ p.2.commits := grouped_commits_pos l p hp
    have hlen : 1 ≤ l.length := by
      cases l with
      | nil => simp at hl
      | cons a t => simp
    refine ⟨?_, ?_, ?_⟩
    · rw [mkEntry]
      dsimp only
      rw [jsDiv, if_neg (Nat.cast_ne_zero.2 (by omega) : ¬((p.2.commits : ℚ) = 0))]
      rfl
    · rw [mkEntry]
      dsimp only
      rw [jsDiv, if_neg (Nat.cast_ne_zero.2 (by omega) : ¬((l.length : ℚ) = 0))]
      rfl
    · rw [mkEntry]
      dsimp only
      by_cases ht : 0 < totalLinesChangedOf l
      · rw [if_pos ht, jsDiv,
          if_neg (Nat.cast_ne_zero.2 (by omega) : ¬((totalLinesChangedOf l : ℚ) = 0))]
        rfl
      · rw [if_neg ht]
        rfl
  · intro l e ht he
    rcases computeStats_mem_authors he with ⟨hl, p, hp, rfl⟩
    rw [mkEntry]
    dsimp only
    rw [if_neg (by omega)]

/-- Witness for C9: the single zero-change commit — total lines changed is
zero and the change percentage of its (only) summary entry is the guarded
zero. -/
theorem claim9_zero_division_safety_witness :
    computeStats [] = ⟨0, []⟩
    ∧ (mkEntry 1 0 ⟨"ann", 1, 0, 0⟩).changePercent = some 0 :=
  ⟨claim9_zero_division_safety.1,
    claim9_zero_division_safety.2.2 [⟨"s", "o/r", "ann", 0, 0, 0⟩]
      (mkEntry 1 0 ⟨"ann", 1, 0, 0⟩) rfl (List.mem_singleton.2 rfl)⟩

/-- C9 counterexample: a single commit with zero additions and deletions has
total lines-changed zero, yet its commit-percentage field is 100, not zero —
"every percentage field is reported as zero" fails as stated (only the
change-percentage is guarded to zero). -/
theorem claim9_counterexample :
    totalLinesChangedOf [⟨"s", "o/r", "ann", 0, 0, 0⟩] = 0
    ∧ ((computeStats [⟨"s", "o/r", "ann", 0, 0, 0⟩]).authors.map
        (fun e => e.commitPercent)) = [some 100]
    ∧ ¬(some (100 : ℚ) = some (0 : ℚ)) := by
  refine ⟨rfl, ?_, by norm_num⟩
  norm_num [computeStats, addCommitToStats, alookup, mkEntry, jsDiv, totalLinesChangedOf,
    List.insertionSort, List.orderedInsert]

/-- Commits of `l` whose normalized author equals `k` (the bucket for `k`). -/
def groupOf (l : List StoredCommit) (k : String) : List StoredCommit :=
  l.filter (fun c => normalizeName c.author == k)

/-- Total additions of a commit list. -/
def sumAdds (l : List StoredCommit) : Nat := (l.map (·.additions)).sum

/-- Total deletions of a commit list. -/
def sumDels (l : List StoredCommit) : Nat := (l.map (·.deletions)).sum

/-- The bucket obtained by folding a commit group on top of an optional
existing bucket: the specification-side description of grouping. -/
def groupAcc : Option AuthorAcc → List StoredCommit → Option AuthorAcc
  | some a, g =>
      some ⟨a.author, a.commits + g.length, a.additions + sumAdds g, a.deletions + sumDels g⟩
  | none, [] => none
  | none, c :: g =>
      some ⟨c.author, 1 + g.length, c.additions + sumAdds g, c.deletions + sumDels g⟩

theorem alookup_map_update (acc : List (String × AuthorAcc)) (key k : String)
    (f : AuthorAcc → AuthorAcc) :
    alookup (acc.map (fun p => if p.1 = key then (p.1, f p.2) else p)) k
      = if k = key then (alookup acc k).map f else alookup acc k := by
  induction acc with
  | nil =>
      simp only [List.map_nil, alookup, Option.map_none']
      split <;> rfl
  | cons p rest ih =>
      rcases p with ⟨k', v⟩
      rw [List.map_cons]
      by_cases h1 : k' = key
      · rw [if_pos h1]
        by_cases h2 : k' = k
        · subst h2
          simp [alookup, h1]
        · rw [alookup, if_neg h2, ih]
          simp [alookup, h2]
      · rw [if_neg h1]
        by_cases h2 : k' = k
        · subst h2
          simp [alookup, h1]
        · rw [alookup, if_neg h2, ih]
          simp [alookup, h2]

theorem alookup_append (l1 l2 : List (String × AuthorAcc)) (k : String) :
    alookup (l1 ++ l2) k
      = match alookup l1 k with
        | some v => some v
        | none => alookup l2 k := by
  induction l1 with
  | nil => simp [alookup]
  | cons p rest ih =>
      rcases p with ⟨k', v⟩
      by_cases h : k' = k
      · simp [alookup, h]
      · simp [alookup, h, ih]

theorem alookup_eq_none_iff (acc : List (String × AuthorAcc)) (k : String) :
    alookup acc k = none ↔ k ∉ acc.map Prod.fst := by
  induction acc with
  | nil => simp [alookup]
  | cons p rest ih =>
      rcases p with ⟨k', v⟩
      by_cases h : k' = k
      · simp [alookup, h]
      · simp [alookup, h, ih, Ne.symm h]

theorem addCommit_alookup (acc : List (String × AuthorAcc)) (c : StoredCommit) (k : String) :
    alookup (addCommitToStats acc c) k =
      if k = normalizeName c.author then
        match alookup acc k with
        | some a => some (bumpAcc c a)
        | none => some ⟨c.author, 1, c.additions, c.deletions⟩
      else alookup acc k := by
  rw [addCommitToStats]
  cases halk : alookup acc (normalizeName c.author) with
  | some a =>
      dsimp only
      rw [alookup_map_update]
      by_cases hk : k = normalizeName c.author
      · rw [if_pos hk, if_pos hk, hk, halk]
        rfl
      · rw [if_neg hk, if_neg hk]
  | none =>
      dsimp only
      rw [alookup_append]
      by_cases hk : k = normalizeName c.author
      · rw [if_pos hk, hk, halk]
        simp [alookup]
      · rw [if_neg hk]
        cases h2 : alookup acc k with
        | some v => rfl
        | none => simp [alookup, Ne.symm hk]

theorem grouped_alookup (l : List StoredCommit) :
    ∀ (acc : List (String × AuthorAcc)) (k : String),
    alookup (l.foldl addCommitToStats acc) k = groupAcc (alookup acc k) (groupOf l k) := by
  induction l with
  | nil =>
      intro acc k
      rw [List.foldl_nil]
      cases h : alookup acc k with
      | none => rfl
      | some a => rfl
  | cons c rest ih =>
      intro acc k
      rw [List.foldl_cons, ih, addCommit_alookup]
      by_cases hk : k = normalizeName c.author
      · rw [if_pos hk]
        have hb : (normalizeName c.author == k) = true := beq_iff_eq.2 hk.symm
        have hg : groupOf (c :: rest) k = c :: groupOf rest k := by
          rw [groupOf, groupOf,
            @List.filter_cons_of_pos _ (fun d => normalizeName d.author == k) c rest hb]
        rw [hg]
        cases h2 : alookup acc k with
        | some a =>
            simp only [groupAcc, bumpAcc, sumAdds, sumDels, List.map_cons, List.sum_cons,
              List.length_cons, Option.some.injEq, AuthorAcc.mk.injEq]
            refine ⟨trivial, ?_, ?_, ?_⟩ <;> omega
        | none => rfl
      · rw [if_neg hk]
        have hb : ¬(normalizeName c.author == k) = true := by
          simp only [beq_iff_eq]
          exact Ne.symm hk
        have hg : groupOf (c :: rest) k = groupOf rest k := by
          rw [groupOf, groupOf,
            @List.filter_cons_of_neg _ (fun d => normalizeName d.author == k) c rest hb]
        rw [hg]

/-- Well-formedness of the grouping object: keys are distinct, and every
bucket's representative display name normalizes back to its key. -/
def groupedWF (acc : List (String × AuthorAcc)) : Prop :=
  (acc.map Prod.fst).Nodup ∧ ∀ p ∈ acc, normalizeName p.2.author = p.1

theorem addCommit_wf {acc : List (String × AuthorAcc)} {c : StoredCommit}
    (h : groupedWF acc) : groupedWF (addCommitToStats acc c) := by
  rw [addCommitToStats]
  cases halk : alookup acc (normalizeName c.author) with
  | some a =>
      dsimp only
      constructor
      · have hkeys :
            (acc.map (fun p =>
              if p.1 = normalizeName c.author then (p.1, bumpAcc c p.2) else p)).map Prod.fst
              = acc.map Prod.fst := by
          rw [List.map_map]
          apply List.map_congr_left
          intro p _
          by_cases hk : p.1 = normalizeName c.author
          · rw [Function.comp_apply, if_pos hk]
          · rw [Function.comp_apply, if_neg hk]
        rw [hkeys]
        exact h.1
      · intro p hp
        rcases List.mem_map.1 hp with ⟨q, hq, rfl⟩
        by_cases hk : q.1 = normalizeName c.author
        · rw [if_pos hk]
          exact h.2 q hq
        · rw [if_neg hk]
          exact h.2 q hq
  | none =>
      dsimp only
      constructor
      · rw [List.map_append, List.nodup_append]
        refine ⟨h.1, List.nodup_singleton _, ?_⟩
        intro x hx hx2
        rcases List.mem_singleton.1 hx2 with rfl
        exact (alookup_eq_none_iff acc _).1 halk hx
      · intro p hp
        rcases List.mem_append.1 hp with hq | hq
        · exact h.2 p hq
        · rcases List.mem_singleton.1 hq with rfl
          rfl

theorem grouped_wf (l : List StoredCommit) : groupedWF (l.foldl addCommitToStats []) := by
  suffices h : ∀ acc, groupedWF acc → groupedWF (l.foldl addCommitToStats acc) by
    exact h [] ⟨List.nodup_nil, by intro p hp; cases hp⟩
  induction l with
  | nil => intro acc h; exact h
  | cons c rest ih =>
      intro acc h
      rw [List.foldl_cons]
      exact ih _ (addCommit_wf h)

theorem filter_keys_of_nodup (acc : List (String × AuthorAcc)) (k : String)
    (hnd : (acc.map Prod.fst).Nodup) :
    acc.filter (fun p => p.1 == k)
      = match alookup acc k with
        | some v => [(k, v)]
        | none => [] := by
  induction acc with
  | nil => rfl
  | cons p rest ih =>
      rcases p with ⟨k', v⟩
      rw [List.map_cons, List.nodup_cons] at hnd
      by_cases h : k' = k
      · subst h
        rw [@List.filter_cons_of_pos _ (fun p => p.1 == k') _ rest (by simp), alookup,
          if_pos rfl]
        have hrest : rest.filter (fun p => p.1 == k') = [] := by
          rw [List.filter_eq_nil_iff]
          intro q hq hbeq
          have hq1 : q.1 = k' := by simpa using hbeq
          exact hnd.1 (List.mem_map.2 ⟨q, hq, hq1⟩)
        rw [hrest]
      · rw [@List.filter_cons_of_neg _ (fun p => p.1 == k) _ rest (by simp [h]), alookup,
          if_neg h, ih hnd.2]

/-- C8: the author summary groups commits by the normalized author key —
for every key with a nonempty group, the summary contains exactly one entry
for it, whose displayed name is the first-seen raw author string of the
group and whose commit count, additions and deletions are the combined
totals of the group. -/
theorem claim8_author_normalization :
    ∀ (l : List StoredCommit) (k : String) (c : StoredCommit) (g : List StoredCommit),
    groupOf l k = c :: g →
    ((computeStats l).authors.filter (fun e => normalizeName e.author == k)).length = 1
    ∧ ∀ e ∈ (computeStats l).authors.filter (fun e => normalizeName e.author == k),
        e.author = c.author
        ∧ e.commits = (groupOf l k).length
        ∧ e.additions = sumAdds (groupOf l k)
        ∧ e.deletions = sumDels (groupOf l k) := by
  intro l k c g hg
  have hl : l.isEmpty = false := by
    cases l with
    | nil => rw [groupOf, List.filter_nil] at hg; cases hg
    | cons a t => rfl
  have hwf := grouped_wf l
  have halk : alookup (l.foldl addCommitToStats []) k
      = some ⟨c.author, 1 + g.length, c.additions + sumAdds g, c.deletions + sumDels g⟩ := by
    rw [grouped_alookup l [] k, hg]
    rfl
  rw [computeStats, if_neg (by rw [hl]; exact Bool.false_ne_true)]
  dsimp only
  have hfe : ((l.foldl addCommitToStats []).map
        (fun p => mkEntry l.length (totalLinesChangedOf l) p.2)).filter
          (fun e => normalizeName e.author == k)
      = [mkEntry l.length (totalLinesChangedOf l)
          ⟨c.author, 1 + g.length, c.additions + sumAdds g, c.deletions + sumDels g⟩] := by
    rw [List.filter_map]
    have hcong : (l.foldl addCommitToStats []).filter
          ((fun e => normalizeName e.author == k)
            ∘ (fun p => mkEntry l.length (totalLinesChangedOf l) p.2))
        = (l.foldl addCommitToStats []).filter (fun p => p.1 == k) := by
      apply List.filter_congr
      intro p hp
      show (normalizeName (mkEntry l.length (totalLinesChangedOf l) p.2).author == k)
        = (p.1 == k)
      rw [show (mkEntry l.length (totalLinesChangedOf l) p.2).author = p.2.author from rfl,
        hwf.2 p hp]
    rw [hcong, filter_keys_of_nodup _ k hwf.1, halk]
    rfl
  have hperm : (List.insertionSort (fun a b : AuthorEntry => b.commits ≤ a.commits)
        ((l.foldl addCommitToStats []).map
          (fun p => mkEntry l.length (totalLinesChangedOf l) p.2))).filter
            (fun e => normalizeName e.author == k)
      = [mkEntry l.length (totalLinesChangedOf l)
          ⟨c.author, 1 + g.length, c.additions + sumAdds g, c.deletions + sumDels g⟩] := by
    refine List.perm_singleton.1 ?_
    have hp := (List.perm_insertionSort (fun a b : AuthorEntry => b.commits ≤ a.commits)
      ((l.foldl addCommitToStats []).map
        (fun p => mkEntry l.length (totalLinesChangedOf l) p.2))).filter
          (fun e => normalizeName e.author == k)
    rw [hfe] at hp
    exact hp
  rw [hperm]
  refine ⟨rfl, ?_⟩
  intro e he
  rcases List.mem_singleton.1 he with rfl
  refine ⟨rfl, ?_, ?_, ?_⟩
  · show 1 + g.length = (groupOf l k).length
    rw [hg, List.length_cons]
    omega
  · show c.additions + sumAdds g = sumAdds (groupOf l k)
    rw [hg, sumAdds, sumAdds, List.map_cons, List.sum_cons]
  · show c.deletions + sumDels g = sumDels (groupOf l k)
    rw [hg, sumDels, sumDels, List.map_cons, List.sum_cons]

/-- Witness for C8: "Patrick Holmes" and "PatrickHolmes" merge into one
entry with combined totals and the first-seen raw display name. -/
theorem claim8_author_normalization_witness :
    ((computeStats [⟨"s1", "o/r", "Patrick Holmes", 0, 10, 2⟩,
        ⟨"s2", "o/r", "PatrickHolmes", 1, 5, 1⟩]).authors.filter
          (fun e => normalizeName e.author == "patrickholmes")).length = 1
    ∧ ∀ e ∈ (computeStats [⟨"s1", "o/r", "Patrick Holmes", 0, 10, 2⟩,
        ⟨"s2", "o/r", "PatrickHolmes", 1, 5, 1⟩]).authors.filter
          (fun e => normalizeName e.author == "patrickholmes"),
        e.author = (⟨"s1", "o/r", "Patrick Holmes", 0, 10, 2⟩ : StoredCommit).author
        ∧ e.commits = (groupOf [⟨"s1", "o/r", "Patrick Holmes", 0, 10, 2⟩,
            ⟨"s2", "o/r", "PatrickHolmes", 1, 5, 1⟩] "patrickholmes").length
        ∧ e.additions = sumAdds (groupOf [⟨"s1", "o/r", "Patrick Holmes", 0, 10, 2⟩,
            ⟨"s2", "o/r", "PatrickHolmes", 1, 5, 1⟩] "patrickholmes")
        ∧ e.deletions = sumDels (groupOf [⟨"s1", "o/r", "Patrick Holmes", 0, 10, 2⟩,
            ⟨"s2", "o/r", "PatrickHolmes", 1, 5, 1⟩] "patrickholmes") :=
  claim8_author_normalization
    [⟨"s1", "o/r", "Patrick Holmes", 0, 10, 2⟩, ⟨"s2", "o/r", "PatrickHolmes", 1, 5, 1⟩]
    "patrickholmes"
    ⟨"s1", "o/r", "Patrick Holmes", 0, 10, 2⟩ [⟨"s2", "o/r", "PatrickHolmes", 1, 5, 1⟩]
    (by decide)

/-- Milliseconds per day: `toISOString` day keys cut timestamps at UTC
midnight boundaries. -/
def msPerDay : Nat := 86400000

/-- The calendar day of a timestamp (its `yyyy-mm-dd` ISO key). -/
def dayOf (t : Nat) : Nat := t / msPerDay

/-- The `linesPerDay` map construction of `generateChartData`: walk the
time-sorted commits accumulating `totalLines += additions - deletions` and
(over)write the running total under the commit's day key — the last commit
of a day wins.  Returns the map and the final total. -/
def buildLinesPerDay : List (Nat × Int) → Int → List StoredCommit → List (Nat × Int) × Int
  | m, tot, [] => (m, tot)
  | m, tot, c :: cs =>
      buildLinesPerDay (aset m (dayOf c.timestamp) (tot + (c.additions : Int) - (c.deletions : Int)))
        (tot + (c.additions : Int) - (c.deletions : Int)) cs

/-- The chart loop of `generateChartData`: one point per day from the cursor
day, using the map value when the day has commits and carrying the last
value forward otherwise. -/
def walkDays (m : List (Nat × Int)) : Nat → Int → Nat → List (Nat × Int)
  | _, _, 0 => []
  | d, lastValue, n + 1 =>
      (d, (alookup m d).getD lastValue)
        :: walkDays m (d + 1) ((alookup m d).getD lastValue) n

/-- The `[...commitList].sort((a, b) => timestamp - timestamp)` stable sort. -/
def sortByTimestamp (l : List StoredCommit) : List StoredCommit :=
  List.insertionSort (fun a b => a.timestamp ≤ b.timestamp) l

/-- `generateChartData` of `src/unnamed/part_002`: sort by timestamp, build
the per-day cumulative map, then emit one point per calendar day from the
first commit day (head of the sorted key array) to the last, carrying the
last value forward on days without commits.  Days are numeric here; the
`toLocaleDateString` display formatting of a day key is not modelled. -/
def generateChartData (l : List StoredCommit) : List (Nat × Int) :=
  let sorted := sortByTimestamp l
  if sorted.isEmpty then []
  else
    let m := (buildLinesPerDay [] 0 sorted).1
    let allDates := List.insertionSort (fun a b : Nat => a ≤ b) (m.map Prod.fst)
    let firstDay := allDates.headD 0
    let lastDay := allDates.getLastD 0
    walkDays m firstDay 0 (lastDay + 1 - firstDay)

/-- The net line change of one commit. -/
def commitDelta (c : StoredCommit) : Int := (c.additions : Int) - (c.deletions : Int)

/-- Cumulative line count through the end of day `d`: the sum of the deltas
of every commit on a day at most `d` — the value of the series at `d`. -/
def cumulativeThrough (l : List StoredCommit) (d : Nat) : Int :=
  ((l.filter (fun c => decide (dayOf c.timestamp ≤ d))).map commitDelta).sum

/-- Cumulative line count strictly before day `d`. -/
def cumulativeBefore (l : List StoredCommit) (d : Nat) : Int :=
  ((l.filter (fun c => decide (dayOf c.timestamp < d))).map commitDelta).sum

/-- Minimum of a list of days (0 for the empty list). -/
def listMin : List Nat → Nat
  | [] => 0
  | [x] => x
  | x :: y :: t => min x (listMin (y :: t))

/-- Maximum of a list of days (0 for the empty list). -/
def listMax : List Nat → Nat
  | [] => 0
  | [x] => x
  | x :: y :: t => max x (listMax (y :: t))

/-- Modelled from the spec's words: one `(date, cumulativeLines)` point per
calendar day from the earliest stored commit's day to the latest, inclusive,
each day carrying the cumulative total through the last commit of that day
(carried forward unchanged on days with no commit); empty for empty input. -/
def specDailySeries (l : List StoredCommit) : List (Nat × Int) :=
  if l.isEmpty then []
  else
    let firstD := listMin (l.map (fun c => dayOf c.timestamp))
    let lastD := listMax (l.map (fun c => dayOf c.timestamp))
    (List.range (lastD + 1 - firstD)).map
      (fun i => (firstD + i, cumulativeThrough l (firstD + i)))

theorem listMin_le : ∀ (L : List Nat), ∀ x ∈ L, listMin L ≤ x
  | [], x, hx => absurd hx (List.not_mem_nil x)
  | [y], x, hx => by
      rcases List.mem_singleton.1 hx with rfl
      exact Nat.le_refl _
  | y :: z :: t, x, hx => by
      rw [listMin]
      rcases List.mem_cons.1 hx with rfl | hx2
      · exact Nat.min_le_left _ _
      · exact Nat.le_trans (Nat.min_le_right _ _) (listMin_le (z :: t) x hx2)

theorem listMin_mem : ∀ (L : List Nat), L ≠ [] → listMin L ∈ L
  | [], h => absurd rfl h
  | [y], _ => by simp [listMin]
  | y :: z :: t, _ => by
      rw [listMin]
      rcases min_choice y (listMin (z :: t)) with h | h <;> rw [h]
      · exact List.mem_cons_self _ _
      · exact List.mem_cons_of_mem _ (listMin_mem (z :: t) (by simp))

theorem le_listMax : ∀ (L : List Nat), ∀ x ∈ L, x ≤ listMax L
  | [], x, hx => absurd hx (List.not_mem_nil x)
  | [y], x, hx => by
      rcases List.mem_singleton.1 hx with rfl
      exact Nat.le_refl _
  | y :: z :: t, x, hx => by
      rw [listMax]
      rcases List.mem_cons.1 hx with rfl | hx2
      · exact Nat.le_max_left _ _
      · exact Nat.le_trans (le_listMax (z :: t) x hx2) (Nat.le_max_right _ _)

theorem listMax_mem : ∀ (L : List Nat), L ≠ [] → listMax L ∈ L
  | [], h => absurd rfl h
  | [y], _ => by simp [listMax]
  | y :: z :: t, _ => by
      rw [listMax]
      rcases max_choice y (listMax (z :: t)) with h | h <;> rw [h]
      · exact List.mem_cons_self _ _
      · exact List.mem_cons_of_mem _ (listMax_mem (z :: t) (by simp))

instance : IsTotal StoredCommit (fun a b => a.timestamp ≤ b.timestamp) :=
  ⟨fun a b => Nat.le_total a.timestamp b.timestamp⟩

instance : IsTrans StoredCommit (fun a b => a.timestamp ≤ b.timestamp) :=
  ⟨fun _ _ _ h1 h2 => Nat.le_trans h1 h2⟩

instance : IsTotal Nat (fun a b : Nat => a ≤ b) := ⟨Nat.le_total⟩

instance : IsTrans Nat (fun a b : Nat => a ≤ b) := ⟨fun _ _ _ => Nat.le_trans⟩

theorem headD_le_of_sorted {L : List Nat} (hs : List.Sorted (fun a b : Nat => a ≤ b) L) :
    ∀ x ∈ L, L.headD 0 ≤ x := by
  cases L with
  | nil => intro x hx; cases hx
  | cons y t =>
      intro x hx
      rcases List.mem_cons.1 hx with rfl | hx2
      · exact Nat.le_refl _
      · exact List.rel_of_sorted_cons hs x hx2

theorem headD_mem {L : List Nat} (h : L ≠ []) : L.headD 0 ∈ L := by
  cases L with
  | nil => exact absurd rfl h
  | cons y t => exact List.mem_cons_self _ _

theorem getLastD_mem_or (L : List Nat) (d : Nat) : L.getLastD d = d ∨ L.getLastD d ∈ L := by
  induction L generalizing d with
  | nil => exact Or.inl rfl
  | cons y t ih =>
      rw [List.getLastD_cons]
      rcases ih y with h | h
      · exact Or.inr (by rw [h]; exact List.mem_cons_self _ _)
      · exact Or.inr (List.mem_cons_of_mem _ h)

theorem getLastD_mem {L : List Nat} (h : L ≠ []) : L.getLastD 0 ∈ L := by
  cases L with
  | nil => exact absurd rfl h
  | cons y t =>
      rw [List.getLastD_cons]
      rcases getLastD_mem_or t y with h2 | h2
      · rw [h2]; exact List.mem_cons_self _ _
      · exact List.mem_cons_of_mem _ h2

theorem le_getLastD_self : ∀ (t : List Nat) (y : Nat),
    List.Sorted (fun a b : Nat => a ≤ b) t → (∀ z ∈ t, y ≤ z) → y ≤ t.getLastD y
  | [], y, _, _ => Nat.le_refl y
  | z :: t2, y, hs, hall => by
      rw [List.getLastD_cons]
      exact Nat.le_trans (hall z (List.mem_cons_self _ _))
        (le_getLastD_self t2 z hs.of_cons (List.rel_of_sorted_cons hs))

theorem le_getLastD_of_sorted : ∀ (L : List Nat) (d : Nat),
    List.Sorted (fun a b : Nat => a ≤ b) L → ∀ x ∈ L, x ≤ L.getLastD d
  | [], _, _, x, hx => absurd hx (List.not_mem_nil x)
  | y :: t, d, hs, x, hx => by
      rw [List.getLastD_cons]
      rcases List.mem_cons.1 hx with rfl | hx2
      · exact le_getLastD_self t x hs.of_cons (List.rel_of_sorted_cons hs)
      · exact le_getLastD_of_sorted t y hs.of_cons x hx2

theorem alookup_aset {β : Type} (m : List (Nat × β)) (k d : Nat) (v : β) :
    alookup (aset m k v) d = if k = d then some v else alookup m d := by
  induction m with
  | nil => simp [aset, alookup]
  | cons p rest ih =>
      rcases p with ⟨k', v'⟩
      rw [aset]
      by_cases h1 : k' = k
      · subst h1
        rw [if_pos rfl]
        by_cases h2 : k' = d
        · simp [alookup, h2]
        · simp [alookup, h2]
      · rw [if_neg h1]
        by_cases h2 : k' = d
        · have hkd : k ≠ d := fun hkd => h1 (h2.trans hkd.symm)
          simp [alookup, h2, hkd]
        · simp [alookup, h2, ih]

theorem keys_aset {β : Type} (m : List (Nat × β)) (k : Nat) (v : β) (d : Nat) :
    d ∈ (aset m k v).map Prod.fst ↔ d = k ∨ d ∈ m.map Prod.fst := by
  induction m with
  | nil => simp [aset]
  | cons p rest ih =>
      rcases p with ⟨k', v'⟩
      rw [aset]
      by_cases h1 : k' = k
      · subst h1
        simp
      · rw [if_neg h1]
        simp only [List.map_cons, List.mem_cons, ih]
        tauto

theorem build_lookup_none : ∀ (cs : List StoredCommit) (m : List (Nat × Int)) (tot : Int)
    (d : Nat), d ∉ cs.map (fun c => dayOf c.timestamp) →
    alookup (buildLinesPerDay m tot cs).1 d = alookup m d := by
  intro cs
  induction cs with
  | nil => intro m tot d _; rfl
  | cons c rest ih =>
      intro m tot d hd
      rw [List.map_cons, List.mem_cons] at hd
      push_neg at hd
      rw [buildLinesPerDay, ih _ _ d hd.2, alookup_aset,
        if_neg (fun h => hd.1 h.symm)]

theorem build_lookup_mem : ∀ (cs : List StoredCommit),
    List.Pairwise (fun a b => dayOf a.timestamp ≤ dayOf b.timestamp) cs →
    ∀ (m : List (Nat × Int)) (tot : Int) (d : Nat),
    d ∈ cs.map (fun c => dayOf c.timestamp) →
    alookup (buildLinesPerDay m tot cs).1 d = some (tot + cumulativeThrough cs d) := by
  intro cs
  induction cs with
  | nil => intro _ m tot d hd; cases hd
  | cons c rest ih =>
      intro hpw m tot d hd
      rw [List.pairwise_cons] at hpw
      rw [buildLinesPerDay]
      by_cases hdr : d ∈ rest.map (fun c => dayOf c.timestamp)
      · rw [ih hpw.2 _ _ d hdr]
        have hcd : dayOf c.timestamp ≤ d := by
          rcases List.mem_map.1 hdr with ⟨b, hb, rfl⟩
          exact hpw.1 b hb
        have hsplit : cumulativeThrough (c :: rest) d
            = commitDelta c + cumulativeThrough rest d := by
          rw [cumulativeThrough, cumulativeThrough,
            @List.filter_cons_of_pos _ (fun e => decide (dayOf e.timestamp ≤ d)) c rest
              (decide_eq_true hcd),
            List.map_cons, List.sum_cons]
        rw [hsplit, commitDelta]
        congr 1
        ring
      · have hdc : d = dayOf c.timestamp := by
          rw [List.map_cons, List.mem_cons] at hd
          rcases hd with h | h
          · exact h
          · exact absurd h hdr
        rw [build_lookup_none rest _ _ d hdr, alookup_aset, if_pos hdc.symm]
        have hsplit : cumulativeThrough (c :: rest) d
            = commitDelta c + cumulativeThrough rest d := by
          rw [cumulativeThrough, cumulativeThrough,
            @List.filter_cons_of_pos _ (fun e => decide (dayOf e.timestamp ≤ d)) c rest
              (decide_eq_true (Nat.le_of_eq hdc.symm)),
            List.map_cons, List.sum_cons]
        have hrest0 : cumulativeThrough rest d = 0 := by
          rw [cumulativeThrough, List.filter_eq_nil_iff.2 ?_, List.map_nil, List.sum_nil]
          intro b hb hble
          have h1 : dayOf c.timestamp ≤ dayOf b.timestamp := hpw.1 b hb
          have h2 : dayOf b.timestamp ≤ d := of_decide_eq_true hble
          exact hdr (List.mem_map.2 ⟨b, hb, by omega⟩)
        rw [hsplit, hrest0, commitDelta]
        congr 1
        ring

theorem build_keys : ∀ (cs : List StoredCommit) (m : List (Nat × Int)) (tot : Int) (d : Nat),
    d ∈ ((buildLinesPerDay m tot cs).1.map Prod.fst)
      ↔ d ∈ m.map Prod.fst ∨ d ∈ cs.map (fun c => dayOf c.timestamp) := by
  intro cs
  induction cs with
  | nil => intro m tot d; simp [buildLinesPerDay]
  | cons c rest ih =>
      intro m tot d
      rw [buildLinesPerDay, ih, keys_aset]
      simp only [List.map_cons, List.mem_cons]
      tauto

theorem walk_spec (sorted : List StoredCommit)
    (hpw : List.Pairwise (fun a b => dayOf a.timestamp ≤ dayOf b.timestamp) sorted) :
    ∀ (n d : Nat) (lastV : Int), lastV = cumulativeBefore sorted d →
    walkDays (buildLinesPerDay [] 0 sorted).1 d lastV n
      = (List.range n).map (fun i => (d + i, cumulativeThrough sorted (d + i))) := by
  intro n
  induction n with
  | zero => intro d lastV _; rfl
  | succ k ih =>
      intro d lastV hlv
      rw [walkDays]
      have hval : (alookup (buildLinesPerDay [] 0 sorted).1 d).getD lastV
          = cumulativeThrough sorted d := by
        by_cases hd : d ∈ sorted.map (fun c => dayOf c.timestamp)
        · rw [build_lookup_mem sorted hpw [] 0 d hd, Option.getD_some]
          ring
        · rw [build_lookup_none sorted [] 0 d hd,
            show alookup ([] : List (Nat × Int)) d = none from rfl, Option.getD_none, hlv]
          rw [cumulativeBefore, cumulativeThrough]
          congr 1
          congr 1
          apply List.filter_congr
          intro c hc
          have hne : dayOf c.timestamp ≠ d := by
            intro h
            exact hd (List.mem_map.2 ⟨c, hc, h⟩)
          apply decide_eq_decide.2
          omega
      rw [hval]
      have hnext : cumulativeThrough sorted d = cumulativeBefore sorted (d + 1) := by
        rw [cumulativeThrough, cumulativeBefore]
        congr 1
        congr 1
        apply List.filter_congr
        intro c _
        apply decide_eq_decide.2
        omega
      rw [ih (d + 1) (cumulativeThrough sorted d) hnext]
      rw [List.range_succ_eq_map, List.map_cons, List.map_map]
      congr 1
      apply List.map_congr_left
      intro i _
      show (d + 1 + i, cumulativeThrough sorted (d + 1 + i))
        = (d + (i + 1), cumulativeThrough sorted (d + (i + 1)))
      rw [show d + 1 + i = d + (i + 1) from by omega]

theorem gen_eq_spec_nonempty (l : List StoredCommit) (hl : l ≠ []) :
    generateChartData l = specDailySeries l := by
  have hemp : l.isEmpty = false := by
    cases l with
    | nil => exact absurd rfl hl
    | cons a t => rfl
  have hsperm : (sortByTimestamp l).Perm l :=
    List.perm_insertionSort (fun a b : StoredCommit => a.timestamp ≤ b.timestamp) l
  have hsorted0 : List.Sorted (fun a b : StoredCommit => a.timestamp ≤ b.timestamp)
      (sortByTimestamp l) :=
    List.sorted_insertionSort (fun a b : StoredCommit => a.timestamp ≤ b.timestamp) l
  have hpw : List.Pairwise (fun a b => dayOf a.timestamp ≤ dayOf b.timestamp)
      (sortByTimestamp l) :=
    hsorted0.imp (fun h => Nat.div_le_div_right h)
  have hsne : sortByTimestamp l ≠ [] := by
    intro h
    exact hl ((h ▸ hsperm : ([] : List StoredCommit).Perm l).symm.eq_nil)
  have hsempty : (sortByTimestamp l).isEmpty = false := by
    cases h : sortByTimestamp l with
    | nil => exact absurd h hsne
    | cons a t => rfl
  have hdayseq : ∀ x : Nat,
      x ∈ (sortByTimestamp l).map (fun c => dayOf c.timestamp)
        ↔ x ∈ l.map (fun c => dayOf c.timestamp) :=
    fun x => (hsperm.map (fun c => dayOf c.timestamp)).mem_iff
  have hADmem : ∀ x : Nat,
      x ∈ List.insertionSort (fun a b : Nat => a ≤ b)
          (((buildLinesPerDay [] 0 (sortByTimestamp l)).1).map Prod.fst)
        ↔ x ∈ l.map (fun c => dayOf c.timestamp) := by
    intro x
    rw [(List.perm_insertionSort (fun a b : Nat => a ≤ b) _).mem_iff,
      build_keys (sortByTimestamp l) [] 0 x]
    simp only [List.map_nil, List.not_mem_nil, false_or]
    exact hdayseq x
  have hADsorted : List.Sorted (fun a b : Nat => a ≤ b)
      (List.insertionSort (fun a b : Nat => a ≤ b)
        (((buildLinesPerDay [] 0 (sortByTimestamp l)).1).map Prod.fst)) :=
    List.sorted_insertionSort _ _
  have hldays_ne : l.map (fun c => dayOf c.timestamp) ≠ [] := by
    cases l with
    | nil => exact absurd rfl hl
    | cons a t => simp
  have hADne : List.insertionSort (fun a b : Nat => a ≤ b)
      (((buildLinesPerDay [] 0 (sortByTimestamp l)).1).map Prod.fst) ≠ [] := by
    intro h
    have hm := (hADmem _).2 (listMin_mem _ hldays_ne)
    rw [h] at hm
    cases hm
  have hfirst : (List.insertionSort (fun a b : Nat => a ≤ b)
      (((buildLinesPerDay [] 0 (sortByTimestamp l)).1).map Prod.fst)).headD 0
      = listMin (l.map (fun c => dayOf c.timestamp)) := by
    apply Nat.le_antisymm
    · exact headD_le_of_sorted hADsorted _ ((hADmem _).2 (listMin_mem _ hldays_ne))
    · exact listMin_le _ _ ((hADmem _).1 (headD_mem hADne))
  have hlast : (List.insertionSort (fun a b : Nat => a ≤ b)
      (((buildLinesPerDay [] 0 (sortByTimestamp l)).1).map Prod.fst)).getLastD 0
      = listMax (l.map (fun c => dayOf c.timestamp)) := by
    apply Nat.le_antisymm
    · exact le_listMax _ _ ((hADmem _).1 (getLastD_mem hADne))
    · exact le_getLastD_of_sorted _ 0 hADsorted _ ((hADmem _).2 (listMax_mem _ hldays_ne))
  have hbase : (0 : Int) = cumulativeBefore (sortByTimestamp l)
      (listMin (l.map (fun c => dayOf c.timestamp))) := by
    rw [cumulativeBefore, List.filter_eq_nil_iff.2 ?_]
    · rfl
    · intro b hb hlt
      have h1 : dayOf b.timestamp ∈ l.map (fun c => dayOf c.timestamp) :=
        (hdayseq _).1 (List.mem_map.2 ⟨b, hb, rfl⟩)
      have h2 := listMin_le _ _ h1
      have h3 := of_decide_eq_true hlt
      omega
  have hcum : ∀ d : Nat, cumulativeThrough (sortByTimestamp l) d = cumulativeThrough l d := by
    intro d
    rw [cumulativeThrough, cumulativeThrough]
    exact ((hsperm.filter (fun c => decide (dayOf c.timestamp ≤ d))).map commitDelta).sum_eq
  rw [generateChartData]
  simp only []
  rw [hsempty, if_neg Bool.false_ne_true, hfirst, hlast]
  rw [walk_spec (sortByTimestamp l) hpw _ _ 0 hbase]
  rw [specDailySeries, if_neg (by rw [hemp]; exact Bool.false_ne_true)]
  simp only []
  apply List.map_congr_left
  intro i _
  rw [hcum]

/-- C7: the chart series equals, for every input, the specification series —
one point per calendar day from the earliest commit's day to the latest
(inclusive), each carrying the cumulative sum of additions minus deletions
through that day, carried forward unchanged on days without commits; empty
for the empty input.  The concrete carry-forward example: +10 on day 0 and
+5 on day 2 with no commit on day 1 yields [(0,10), (1,10), (2,15)]. -/
theorem claim7_daily_series_carry_forward :
    (∀ l : List StoredCommit, generateChartData l = specDailySeries l)
    ∧ generateChartData
        [⟨"s1", "o/r", "ann", 0, 10, 0⟩, ⟨"s2", "o/r", "ann", 2 * msPerDay, 5, 0⟩]
      = [(0, 10), (1, 10), (2, 15)] := by
  constructor
  · intro l
    cases l with
    | nil => rfl
    | cons c t => exact gen_eq_spec_nonempty (c :: t) (by simp)
  · decide
